import Mathlib

/-!
# Verification of the Antigravity ↔ Gemini protocol adapter

Shallow embedding of `src/utils/geminiAdapter.js`.

JavaScript values are modelled by the inductive type `JVal`: JSON values
plus the distinguished `undefined` value (needed because property access on
a missing key yields `undefined`, and `??` / `=== undefined` distinguish it
from `null`).  JavaScript objects are modelled as ordered association lists
(`List (String × JVal)`); objects produced by `JSON.parse` have pairwise
distinct keys, and insertion-order semantics of object literals, spreads and
property assignment are modelled explicitly.  Numbers are modelled as
integers (`Int`): no claim about this adapter depends on fractional or
non-finite numbers.
-/

namespace Antigravity

/-- A JavaScript (JSON-like) runtime value.  `undef` is JavaScript
`undefined`; `obj` fields are in insertion order. -/
inductive JVal where
  | null : JVal
  | undef : JVal
  | bool (b : Bool) : JVal
  | num (n : Int) : JVal
  | str (s : String) : JVal
  | arr (elems : List JVal) : JVal
  | obj (fields : List (String × JVal)) : JVal

/-- JavaScript truthiness: `undefined`, `null`, `false`, `0` and `""` are
falsy; every other value (including `[]` and `{}`) is truthy. -/
def truthy : JVal → Bool
  | .null => false
  | .undef => false
  | .bool b => b
  | .num n => n != 0
  | .str s => s ≠ ""
  | .arr _ => true
  | .obj _ => true

/-- `typeof v === 'object'`: true for `null`, arrays and plain objects. -/
def typeofObject : JVal → Bool
  | .null => true
  | .arr _ => true
  | .obj _ => true
  | _ => false

/-- `v === null || v === undefined` (the values on which property access
throws a `TypeError`). -/
def nullish : JVal → Bool
  | .null => true
  | .undef => true
  | _ => false

/-- `v === undefined`. -/
def isUndef : JVal → Bool
  | .undef => true
  | _ => false

/-- `v === null`. -/
def isNull : JVal → Bool
  | .null => true
  | _ => false

/-- `Array.isArray v`. -/
def isArr : JVal → Bool
  | .arr _ => true
  | _ => false

/-- First binding of key `k` in an association list, as a JS property read:
a missing key reads as `undefined`. -/
def getKey : List (String × JVal) → String → JVal
  | [], _ => .undef
  | (k', v) :: l, k => if k' = k then v else getKey l k

/-- JS property read `v[k]` on an arbitrary value.  On a plain object it is
the stored binding; every other value (primitives, arrays — no string key of
interest collides with array indices or built-ins here) reads as
`undefined`.  Reads on `null`/`undefined` throw in JS; the adapter only
performs them behind truthiness guards, and callers model the throwing case
separately. -/
def jget : JVal → String → JVal
  | .obj l, k => getKey l k
  | _, _ => JVal.undef

/-- Whether an object value has `k` as an own key (regardless of the stored
value, which may be `undefined`). -/
def hasOwnKey : JVal → String → Bool
  | .obj l, k => l.any (fun p => p.1 = k)
  | _, _ => false

/-- JS property assignment / object-literal override `o[k] = v`: if the key
is present its (first) binding is updated in place (insertion position
kept), otherwise the binding is appended.  JS objects — in particular every
object produced by `JSON.parse` — have pairwise distinct keys, for which
this is exactly property assignment. -/
def insertKV : List (String × JVal) → String → JVal → List (String × JVal)
  | [], k, v => [(k, v)]
  | p :: l, k, v => if p.1 = k then (k, v) :: l else p :: insertKV l k v

/-- Spread `{...base, ...more}`-style merge: each binding of `more` is
written into `base` in order (later writes win, first insertion position
kept). -/
def spreadInto (base more : List (String × JVal)) : List (String × JVal) :=
  more.foldl (fun acc p => insertKV acc p.1 p.2) base

/-- Nullish coalescing `a ?? b`. -/
def nullishCoalesce (a b : JVal) : JVal :=
  if nullish a then b else a

/-- Logical-or default `a || b`. -/
def orDefault (a b : JVal) : JVal :=
  if truthy a then a else b

/-! ## JSON text primitives

`JSON.parse` / `JSON.stringify` are modelled over the character sequence of
the string.  JSON numbers are modelled as integers (no claim depends on
fractional or exponent literals); strings are sequences of Unicode scalar
values. -/

/-- The four JSON whitespace characters. -/
def isWs (c : Char) : Bool :=
  c = ' ' || c = '\t' || c = '\n' || c = '\r'

/-- Drop leading JSON whitespace. -/
def skipWs : List Char → List Char
  | [] => []
  | c :: cs => if isWs c then skipWs cs else c :: cs

/-- The decimal digit character for `d < 10`. -/
def digitChar (d : Nat) : Char :=
  Char.ofNat (48 + d)

/-- The lowercase hexadecimal digit character for `d < 16` (as
`JSON.stringify` emits in `\u00xx` escapes). -/
def hexDigitChar (d : Nat) : Char :=
  if d < 10 then Char.ofNat (48 + d) else Char.ofNat (87 + d)

/-- Value of a hexadecimal digit character, if any. -/
def hexDigitVal (c : Char) : Option Nat :=
  if 48 ≤ c.toNat ∧ c.toNat ≤ 57 then some (c.toNat - 48)
  else if 97 ≤ c.toNat ∧ c.toNat ≤ 102 then some (c.toNat - 87)
  else if 65 ≤ c.toNat ∧ c.toNat ≤ 70 then some (c.toNat - 55)
  else none

/-- Decimal digits, most significant first; structural fuel (any fuel
above the number itself is enough, see `natCharsAux_irrel`). -/
def natCharsAux : Nat → Nat → List Char
  | 0, _ => []
  | fuel + 1, n =>
      if n < 10 then [digitChar n]
      else natCharsAux fuel (n / 10) ++ [digitChar (n % 10)]

/-- Decimal digits of a natural number, most significant first. -/
def natChars (n : Nat) : List Char :=
  natCharsAux (n + 1) n

/-- Horner evaluation of a digit-character sequence (the parser's view). -/
def digitsVal (ds : List Char) (acc : Nat) : Nat :=
  ds.foldl (fun a c => a * 10 + (c.toNat - 48)) acc

/-- Decimal representation of an integer. -/
def intChars (n : Int) : List Char :=
  if n < 0 then '-' :: natChars n.natAbs else natChars n.toNat

/-- `JSON.stringify`'s escape of a single string character: `"` and `\`
escaped, the five control shorthands, `\u00xx` for other control
characters, everything else verbatim. -/
def escChar (c : Char) : List Char :=
  if c = '"' then ['\\', '"']
  else if c = '\\' then ['\\', '\\']
  else if c = '\x08' then ['\\', 'b']
  else if c = '\t' then ['\\', 't']
  else if c = '\n' then ['\\', 'n']
  else if c = '\x0c' then ['\\', 'f']
  else if c = '\r' then ['\\', 'r']
  else if c.toNat < 32 then
    ['\\', 'u', '0', '0',
     hexDigitChar (c.toNat / 16), hexDigitChar (c.toNat % 16)]
  else [c]

/-- Escape every character of a string body. -/
def escList : List Char → List Char
  | [] => []
  | c :: cs => escChar c ++ escList cs

/-- The serialized form of a string, quotes included. -/
def escStr (s : String) : List Char :=
  '"' :: escList s.data ++ ['"']

/-- The decimal-indexed bindings an array contributes to `{...arr}`,
starting at index `i`. -/
def arrFields (i : Nat) : List JVal → List (String × JVal)
  | [] => []
  | x :: xs => (String.mk (natChars i), x) :: arrFields (i + 1) xs

/-- The own enumerable properties captured by `{...v}` / rest-destructuring:
an object contributes its bindings, an array contributes decimal-indexed
bindings, and every other value contributes nothing. -/
def spreadCopy : JVal → List (String × JVal)
  | .obj l => l
  | .arr xs => arrFields 0 xs
  | _ => []

/-! ## The configuration collaborator

The spec treats the static configuration source as an opaque read-only
provider of four default generation parameters and a default system
instruction string (`config.defaults.top_p`, `.top_k`, `.temperature`,
`.max_tokens`, and `config.systemInstruction`).  It is a collaborator
outside the adapter, so it is a parameter of the embedding. -/

structure Config where
  top_p : JVal
  top_k : JVal
  temperature : JVal
  max_tokens : JVal
  systemInstruction : JVal

/-! ## `sanitizePart` / `sanitizeCandidate` (geminiAdapter.js lines 75–108) -/

/-- `sanitizePart`: `if (!part || typeof part !== 'object') return part;`
then rest-destructuring `const { thoughtSignature, ...cleanPart } = part`,
which copies every own enumerable property except `thoughtSignature`. -/
def sanitizePart (part : JVal) : JVal :=
  if !truthy part || !typeofObject part then part
  else .obj ((spreadCopy part).filter (fun p => p.1 ≠ "thoughtSignature"))

/-- `if (result.index === undefined) { result.index = index; }` on the
copied field list. -/
def indexStep (result : List (String × JVal)) (index : Int) :
    List (String × JVal) :=
  if isUndef (getKey result "index") then insertKV result "index" (.num index)
  else result

/-- `if (result.content && Array.isArray(result.content.parts)) {
result.content = { ...result.content, parts: result.content.parts.map(sanitizePart) }; }`. -/
def contentStep (result : List (String × JVal)) : List (String × JVal) :=
  let content := getKey result "content"
  if truthy content then
    match jget content "parts" with
    | .arr parts =>
        insertKV result "content"
          (.obj (insertKV (spreadCopy content) "parts"
            (.arr (parts.map sanitizePart))))
    | _ => result
  else result

/-- Body of `sanitizeCandidate` on the copied field list (`result` after
`const result = { ...candidate }`): the conditional `index` assignment
followed by the `content.parts` rebuild. -/
def sanitizeFields (result : List (String × JVal)) (index : Int) :
    List (String × JVal) :=
  contentStep (indexStep result index)

/-- `sanitizeCandidate(candidate, index)`: defensive passthrough for
non-objects (`if (!candidate || typeof candidate !== 'object') return
candidate`), then shallow copy and `sanitizeFields`. -/
def sanitizeCandidate (candidate : JVal) (index : Int) : JVal :=
  if !truthy candidate || !typeofObject candidate then candidate
  else .obj (sanitizeFields (spreadCopy candidate) index)

/-- `candidates.map((candidate, idx) => sanitizeCandidate(candidate, idx))`,
with the 0-based positional index threaded explicitly. -/
def sanitizeAll (i : Int) : List JVal → List JVal
  | [] => []
  | c :: cs => sanitizeCandidate c i :: sanitizeAll (i + 1) cs

/-! ## `extractGeminiResponse` (lines 115–133) -/

/-- `extractGeminiResponse`: unwrap `{response: ...}` when the input and its
`response` field are truthy, pass non-candidate payloads through, otherwise
shallow-copy with sanitized candidates. -/
def extractGeminiResponse (antigravityResponse : JVal) : JVal :=
  let response :=
    if truthy antigravityResponse && truthy (jget antigravityResponse "response")
    then jget antigravityResponse "response"
    else antigravityResponse
  if !truthy response then response
  else
    match jget response "candidates" with
    | .arr cs =>
        .obj (insertKV (spreadCopy response) "candidates" (.arr (sanitizeAll 0 cs)))
    | _ => response

/-! ## `convertGeminiToAntigravity` (lines 16–68)

The request-ID generator is an opaque collaborator returning a unique
string; the value it produces for this invocation is passed in as `reqId`.
The function throws a `TypeError` (modelled as `none`) exactly when it
dereferences `null`/`undefined`: destructuring a nullish `geminiRequest`,
reading `.topP` of a `null`-valued `generationConfig` field (the
destructuring default `{}` only applies to `undefined`), or reading
`.projectId` of a nullish `token`. -/

/-- Lines 26–33: the merged `generationConfig`.  `gc` is the destructured
`generationConfig` value (already defaulted to `{}` when absent). -/
def mergedGenerationConfig (cfg : Config) (gc : JVal) : JVal :=
  .obj (spreadInto
    [("topP", nullishCoalesce (jget gc "topP") cfg.top_p),
     ("topK", nullishCoalesce (jget gc "topK") cfg.top_k),
     ("temperature", nullishCoalesce (jget gc "temperature") cfg.temperature),
     ("maxOutputTokens", nullishCoalesce (jget gc "maxOutputTokens") cfg.max_tokens),
     ("candidateCount", nullishCoalesce (jget gc "candidateCount") (.num 1))]
    (spreadCopy gc))

/-- Lines 36–53: the normalized `systemInstruction` (`si` is the
destructured `systemInstruction` value). -/
def finalSystemInstruction (cfg : Config) (si : JVal) : JVal :=
  if truthy si then
    .obj [("role", orDefault (jget si "role") (.str "user")),
          ("parts", orDefault (jget si "parts")
            (.arr [.obj [("text", orDefault cfg.systemInstruction (.str ""))]]))]
  else if truthy cfg.systemInstruction then
    .obj [("role", .str "user"),
          ("parts", .arr [.obj [("text", cfg.systemInstruction)]])]
  else
    .obj [("role", .str "user"), ("parts", .arr [.obj [("text", .str "")]])]

/-- The keys destructured away from `geminiRequest`; `...rest` collects all
other own properties. -/
def destructuredKeys : List String :=
  ["contents", "generationConfig", "systemInstruction", "safetySettings"]

/-- Destructuring default `const { x = d } = o`: the default applies only
when the property is `undefined` (not when it is `null`). -/
def undefDefault (a b : JVal) : JVal :=
  if isUndef a then b else a

/-- `convertGeminiToAntigravity(model, geminiRequest, token)`.  `none`
models a thrown `TypeError` (see above). -/
def convertGeminiToAntigravity (cfg : Config) (reqId : JVal)
    (model geminiRequest token : JVal) : Option JVal :=
  if nullish geminiRequest then none
  else
    let contents :=
      undefDefault (jget geminiRequest "contents") (.arr [])
    let generationConfig :=
      undefDefault (jget geminiRequest "generationConfig") (.obj [])
    let systemInstruction := jget geminiRequest "systemInstruction"
    let rest := (spreadCopy geminiRequest).filter
      (fun p => p.1 ∉ destructuredKeys)
    if isNull generationConfig then none
    else if nullish token then none
    else some (.obj
      [("project", jget token "projectId"),
       ("requestId", reqId),
       ("request", .obj (spreadInto
          [("contents", contents),
           ("systemInstruction", finalSystemInstruction cfg systemInstruction),
           ("generationConfig", mergedGenerationConfig cfg generationConfig),
           ("sessionId", jget token "sessionId")]
          rest)),
       ("model", model),
       ("userAgent", .str "antigravity")])

/-! ## Claim-side recipe definitions

For refinement claims, a second definition follows the claim's words
(naming convention: `...ClaimSpec`), to be compared with the definition
translated from the source.  "Shallow copy" and "removing a key" are the
JavaScript own-enumerable-property operations the spec describes (object
spread / rest-destructuring), modelled by `spreadCopy` and key filtering. -/

/-- The claim's part transform: "each part equal to the original part with
only the `thoughtSignature` key removed (all other part fields retained
verbatim)"; values without own properties are untouched. -/
def stripThoughtSignature (part : JVal) : JVal :=
  if !truthy part || !typeofObject part then part
  else .obj ((spreadCopy part).filter (fun p => p.1 ≠ "thoughtSignature"))

/-- Claim C1's description of `sanitizeCandidate`: pass non-objects (and
`null`) through; otherwise a shallow copy whose `index` is the candidate's
own `index` when defined and the positional index otherwise, and whose
`content.parts`, when an array, is replaced by the same-length, same-order
array of stripped parts, `content`'s other fields untouched and `content`
unchanged when `parts` is absent or not an array. -/
def sanitizeCandidateClaimSpec (c : JVal) (i : Int) : JVal :=
  if isNull c || !typeofObject c then c
  else
    let copy := spreadCopy c
    let withIndex := insertKV copy "index"
      (if isUndef (getKey copy "index") then JVal.num i else getKey copy "index")
    match jget (getKey copy "content") "parts" with
    | .arr parts =>
        .obj (insertKV withIndex "content"
          (.obj (insertKV (spreadCopy (getKey copy "content")) "parts"
            (.arr (parts.map stripThoughtSignature)))))
    | _ => .obj withIndex

/-- Claim C2's description of `extractGeminiResponse`, as stated: unwrap by
*key presence* ("if r has a `response` property the payload is
r.response"), pass payloads without a `candidates` array through unchanged,
otherwise shallow-copy with each candidate sanitized at its 0-based
position in the original array. -/
def extractResponseClaimSpec (r : JVal) : JVal :=
  let payload := if hasOwnKey r "response" then jget r "response" else r
  match jget payload "candidates" with
  | .arr cs =>
      .obj (insertKV (spreadCopy payload) "candidates"
        (.arr (cs.mapIdx (fun j c => sanitizeCandidate c j))))
  | _ => payload

/-- Claim C2 as amended: the unwrap is by *truthiness* — the payload is
`r.response` when `r` and `r.response` are both truthy, else `r` itself;
the candidate handling is as the claim states it. -/
def extractResponseAmendedSpec (r : JVal) : JVal :=
  let payload :=
    if truthy r && truthy (jget r "response") then jget r "response" else r
  match jget payload "candidates" with
  | .arr cs =>
      .obj (insertKV (spreadCopy payload) "candidates"
        (.arr (cs.mapIdx (fun j c => sanitizeCandidate c j))))
  | _ => payload

/-- Claim C5's resolution of the system instruction, as stated: branch (a)
applies when the request *supplies* a `systemInstruction` (the field is
present, i.e. not `undefined`), and inside it `role`/`parts` are used
whenever *present*. -/
def systemInstructionClaimSpec (cfg : Config) (si : JVal) : JVal :=
  if !isUndef si then
    .obj [("role",
            if !isUndef (jget si "role") then jget si "role" else .str "user"),
          ("parts",
            if !isUndef (jget si "parts") then jget si "parts"
            else .arr [.obj [("text",
              if truthy cfg.systemInstruction then cfg.systemInstruction
              else .str "")]])]
  else if truthy cfg.systemInstruction then
    .obj [("role", .str "user"),
          ("parts", .arr [.obj [("text", cfg.systemInstruction)]])]
  else
    .obj [("role", .str "user"), ("parts", .arr [.obj [("text", .str "")]])]

/-- Claim C5 as amended: branch (a) applies when the supplied
`systemInstruction` is truthy, and `role`/`parts` are used when truthy
(empty-string `role`, like an absent one, falls back to `"user"`). -/
def systemInstructionAmendedSpec (cfg : Config) (si : JVal) : JVal :=
  if truthy si then
    .obj [("role",
            if truthy (jget si "role") then jget si "role" else .str "user"),
          ("parts",
            if truthy (jget si "parts") then jget si "parts"
            else .arr [.obj [("text",
              if truthy cfg.systemInstruction then cfg.systemInstruction
              else .str "")]])]
  else if truthy cfg.systemInstruction then
    .obj [("role", .str "user"),
          ("parts", .arr [.obj [("text", cfg.systemInstruction)]])]
  else
    .obj [("role", .str "user"), ("parts", .arr [.obj [("text", .str "")]])]

/-- The per-field configured default named by claims C4/C10. -/
def cfgDefault (cfg : Config) : String → JVal
  | "topP" => cfg.top_p
  | "topK" => cfg.top_k
  | "temperature" => cfg.temperature
  | "maxOutputTokens" => cfg.max_tokens
  | _ => JVal.undef

/-- The five generation-config keys claims C4/C10 talk about. -/
def namedConfigKeys : List String :=
  ["topP", "topK", "temperature", "maxOutputTokens", "candidateCount"]

/-- Top-level key list of an object value. -/
def topKeys : JVal → List String
  | .obj l => l.map Prod.fst
  | _ => []

/-! ## `JSON.stringify` -/

mutual

/-- `JSON.stringify`, over characters.  Applied by the adapter only to
values obtained from `JSON.parse` (hence free of `undefined`); the `undef`
case is unreachable there and serialized like `null`. -/
def stringifyChars : JVal → List Char
  | .null => "null".data
  | .undef => "null".data
  | .bool true => "true".data
  | .bool false => "false".data
  | .num n => intChars n
  | .str s => escStr s
  | .arr xs => '[' :: stringifyArr xs ++ [']']
  | .obj l => '{' :: stringifyObj l ++ ['}']

/-- Comma-joined serialization of array elements. -/
def stringifyArr : List JVal → List Char
  | [] => []
  | x :: xs =>
      stringifyChars x ++ (match xs with
        | [] => []
        | _ :: _ => ',' :: stringifyArr xs)

/-- Comma-joined serialization of object fields. -/
def stringifyObj : List (String × JVal) → List Char
  | [] => []
  | (k, v) :: l =>
      escStr k ++ ':' :: stringifyChars v ++ (match l with
        | [] => []
        | _ :: _ => ',' :: stringifyObj l)

end

/-- `JSON.stringify` as a string. -/
def jsonStringify (v : JVal) : String :=
  String.mk (stringifyChars v)

/-! ## `JSON.parse` -/

/-- Match an expected literal tail (for `null` / `true` / `false`). -/
def expectChars : List Char → List Char → Option (List Char)
  | [], cs => some cs
  | _ :: _, [] => none
  | e :: es, c :: cs => if c = e then expectChars es cs else none

/-- Body of a JSON string after the opening quote; `acc` holds parsed
characters in reverse.  Invalid escapes and raw control characters are
rejected, as `JSON.parse` rejects them. -/
def parseStr : List Char → List Char → Option (String × List Char)
  | [], _ => none
  | c :: rest, acc =>
      if c = '"' then some (String.mk acc.reverse, rest)
      else if c = '\\' then
        match rest with
        | [] => none
        | e :: rest2 =>
            if e = '"' then parseStr rest2 ('"' :: acc)
            else if e = '\\' then parseStr rest2 ('\\' :: acc)
            else if e = '/' then parseStr rest2 ('/' :: acc)
            else if e = 'b' then parseStr rest2 ('\x08' :: acc)
            else if e = 'f' then parseStr rest2 ('\x0c' :: acc)
            else if e = 'n' then parseStr rest2 ('\n' :: acc)
            else if e = 'r' then parseStr rest2 ('\r' :: acc)
            else if e = 't' then parseStr rest2 ('\t' :: acc)
            else if e = 'u' then
              match rest2 with
              | h1 :: h2 :: h3 :: h4 :: rest3 =>
                  match hexDigitVal h1, hexDigitVal h2,
                      hexDigitVal h3, hexDigitVal h4 with
                  | some a, some b, some c2, some d =>
                      parseStr rest3
                        (Char.ofNat (((a * 16 + b) * 16 + c2) * 16 + d) :: acc)
                  | _, _, _, _ => none
              | _ => none
            else none
      else if c.toNat < 32 then none
      else parseStr rest (c :: acc)

/-- Greedily consume decimal digits, Horner-accumulating their value. -/
def parseDigits : List Char → Nat → Nat × List Char
  | [], acc => (acc, [])
  | c :: rest, acc =>
      if c.isDigit then parseDigits rest (acc * 10 + (c.toNat - 48))
      else (acc, c :: rest)

/-- A natural-number literal (at least one digit). -/
def parseNum : List Char → Option (Nat × List Char)
  | [] => none
  | c :: rest =>
      if c.isDigit then some (parseDigits (c :: rest) 0) else none

mutual

/-- One JSON value (integer-number fragment); fuel strictly exceeds the
recursion depth of any terminating parse — every unit of fuel spent
corresponds to at least one character consumed across two nested calls, so
the `2 * length + 2` budget of `jsonParse` is always sufficient. -/
def parseVal : Nat → List Char → Option (JVal × List Char)
  | 0, _ => none
  | fuel + 1, cs =>
      match skipWs cs with
      | [] => none
      | c :: rest =>
          if c = 'n' then
            (expectChars ['u', 'l', 'l'] rest).map (fun r => (.null, r))
          else if c = 't' then
            (expectChars ['r', 'u', 'e'] rest).map (fun r => (.bool true, r))
          else if c = 'f' then
            (expectChars ['a', 'l', 's', 'e'] rest).map
              (fun r => (.bool false, r))
          else if c = '"' then
            (parseStr rest []).map (fun p => (.str p.1, p.2))
          else if c = '[' then
            match skipWs rest with
            | ']' :: rest2 => some (.arr [], rest2)
            | _ => (parseArrItems fuel rest).map (fun p => (.arr p.1, p.2))
          else if c = '{' then
            match skipWs rest with
            | '}' :: rest2 => some (.obj [], rest2)
            | _ =>
                (parseObjItems fuel [] rest).map (fun p => (.obj p.1, p.2))
          else if c = '-' then
            (parseNum rest).map (fun p => (.num (-(p.1 : Int)), p.2))
          else if c.isDigit then
            (parseNum (c :: rest)).map (fun p => (.num (p.1 : Int), p.2))
          else none

/-- The comma-separated elements of a non-empty array, up to and including
the closing bracket. -/
def parseArrItems : Nat → List Char → Option (List JVal × List Char)
  | 0, _ => none
  | fuel + 1, cs =>
      match parseVal fuel cs with
      | some (v, rest) =>
          match skipWs rest with
          | ',' :: rest2 =>
              (parseArrItems fuel rest2).map (fun p => (v :: p.1, p.2))
          | ']' :: rest2 => some ([v], rest2)
          | _ => none
      | none => none

/-- The comma-separated members of a non-empty object, up to and including
the closing brace, accumulated with JS property-assignment semantics
(duplicate keys: last value wins, first position kept). -/
def parseObjItems : Nat → List (String × JVal) → List Char →
    Option (List (String × JVal) × List Char)
  | 0, _, _ => none
  | fuel + 1, acc, cs =>
      match skipWs cs with
      | '"' :: rest =>
          match parseStr rest [] with
          | some (k, rest2) =>
              match skipWs rest2 with
              | ':' :: rest3 =>
                  match parseVal fuel rest3 with
                  | some (v, rest4) =>
                      match skipWs rest4 with
                      | ',' :: rest5 =>
                          parseObjItems fuel (insertKV acc k v) rest5
                      | '}' :: rest5 => some (insertKV acc k v, rest5)
                      | _ => none
                  | none => none
              | _ => none
          | none => none
      | _ => none

end

/-- `JSON.parse`: parse one value, allow trailing whitespace, reject
anything else (the model of the `try { JSON.parse(...) }` succeeding). -/
def jsonParse (s : String) : Option JVal :=
  match parseVal (2 * s.length + 2) s.data with
  | some (v, rest) =>
      match skipWs rest with
      | [] => some v
      | _ :: _ => none
  | none => none

/-! ## The streaming line transform (geminiAdapter.js lines 161–184) -/

/-- `line.startsWith('data: ')`, over the character sequence. -/
def startsWithData (line : String) : Bool :=
  line.data.take 6 = "data: ".data

/-- `line.slice(6)`, over the character sequence. -/
def dropData (line : String) : String :=
  String.mk (line.data.drop 6)

/-- The payload transform inside `transformStreamLine`: unwrap a truthy
`response`, then sanitize `candidates` in place when present
(`geminiData.candidates && Array.isArray(geminiData.candidates)`). -/
def transformPayload (data : JVal) : JVal :=
  let geminiData :=
    if truthy (jget data "response") then jget data "response" else data
  if truthy (jget geminiData "candidates") then
    match jget geminiData "candidates" with
    | .arr cs =>
        .obj (insertKV (spreadCopy geminiData) "candidates"
          (.arr (sanitizeAll 0 cs)))
    | _ => geminiData
  else geminiData

/-- `transformStreamLine`: pass non-`data: ` lines and unparsable payloads
through; a parsed `null` payload makes `data.response` throw a `TypeError`
inside the `try`, so the original line is returned; otherwise re-serialize
the transformed payload. -/
def transformStreamLine (line : String) : String :=
  if startsWithData line then
    match jsonParse (dropData line) with
    | some data =>
        if nullish data then line
        else "data: " ++ jsonStringify (transformPayload data)
    | none => line
  else line

/-- Claim C3's description of `transformStreamLine`, as stated: unchanged
exactly on non-`data: ` lines and parse failures; any parsed payload is
unwrapped and sanitized exactly as `extractGeminiResponse` does and
re-serialized. -/
def transformStreamLineClaimSpec (line : String) : String :=
  if startsWithData line then
    match jsonParse (dropData line) with
    | some v => "data: " ++ jsonStringify (extractGeminiResponse v)
    | none => line
  else line

/-! ## Parser measures and well-formedness -/

mutual

/-- Fuel needed by `parseVal` to parse the serialization of a value. -/
def pm : JVal → Nat
  | .arr xs => pmArr xs + 1
  | .obj l => pmObj l + 1
  | _ => 1

/-- Fuel needed by `parseArrItems` for serialized array elements. -/
def pmArr : List JVal → Nat
  | [] => 1
  | x :: xs => pm x + pmArr xs + 1

/-- Fuel needed by `parseObjItems` for serialized object members. -/
def pmObj : List (String × JVal) → Nat
  | [] => 1
  | p :: l => pm p.2 + pmObj l + 1

end

/-- Pairwise-distinct keys of a field list. -/
def noDupKeys : List (String × JVal) → Bool
  | [] => true
  | p :: l => !(l.any (fun q => q.1 = p.1)) && noDupKeys l

mutual

/-- A value in the image of `JSON.parse`: no `undefined` anywhere and
duplicate-free object keys throughout. -/
def goodJ : JVal → Bool
  | .undef => false
  | .arr xs => goodArr xs
  | .obj l => noDupKeys l && goodFields l
  | _ => true

/-- All array elements good. -/
def goodArr : List JVal → Bool
  | [] => true
  | x :: xs => goodJ x && goodArr xs

/-- All field values good. -/
def goodFields : List (String × JVal) → Bool
  | [] => true
  | p :: l => goodJ p.2 && goodFields l

end

/-! ## Association-list lemmas -/

theorem getKey_insertKV_self (l : List (String × JVal)) (k : String) (v : JVal) :
    getKey (insertKV l k v) k = v := by
  induction l with
  | nil => simp [insertKV, getKey]
  | cons p l ih =>
      by_cases h : p.1 = k <;> simp [insertKV, getKey, h, ih]

theorem getKey_insertKV_ne (l : List (String × JVal)) {k k' : String} (v : JVal)
    (h : k' ≠ k) : getKey (insertKV l k v) k' = getKey l k' := by
  have h' : ¬(k = k') := fun e => h e.symm
  induction l with
  | nil => simp [insertKV, getKey, h']
  | cons p l ih =>
      by_cases hp : p.1 = k
      · simp [insertKV, getKey, hp, h']
      · by_cases hp' : p.1 = k' <;> simp [insertKV, getKey, hp, hp', h, h', ih]

theorem insertKV_insertKV_self (l : List (String × JVal)) (k : String) (v : JVal) :
    insertKV (insertKV l k v) k v = insertKV l k v := by
  induction l with
  | nil => simp [insertKV]
  | cons p l ih =>
      by_cases h : p.1 = k <;> simp [insertKV, h, ih]

/-- Writing back the value a present key already has is a no-op. -/
theorem insertKV_getKey_self (l : List (String × JVal)) (k : String)
    (hmem : l.any (fun p => p.1 = k)) :
    insertKV l k (getKey l k) = l := by
  induction l with
  | nil => simp at hmem
  | cons p l ih =>
      by_cases h : p.1 = k
      · cases p with
        | mk k₀ v₀ => simp_all [insertKV, getKey]
      · have : l.any (fun p => p.1 = k) := by simp_all
        simp [insertKV, getKey, h, ih this]

/-- A key whose first binding is not `undefined` is present. -/
theorem any_of_getKey_ne_undef {l : List (String × JVal)} {k : String}
    (h : getKey l k ≠ .undef) : l.any (fun p => p.1 = k) := by
  induction l with
  | nil => simp [getKey] at h
  | cons p l ih =>
      by_cases hp : p.1 = k
      · simp [hp]
      · simp only [getKey, hp, if_neg hp] at h
        simp [hp, ih h]

/-! ## Idempotence of the candidate sanitizer -/

theorem sanitizePart_idem (p : JVal) :
    sanitizePart (sanitizePart p) = sanitizePart p := by
  cases p with
  | null => rfl
  | undef => rfl
  | bool b => cases b <;> rfl
  | num n => simp [sanitizePart, typeofObject]
  | str s => simp [sanitizePart, typeofObject]
  | arr xs =>
      simp [sanitizePart, truthy, typeofObject, spreadCopy, List.filter_filter]
  | obj l =>
      simp [sanitizePart, truthy, typeofObject, spreadCopy, List.filter_filter]

theorem map_sanitizePart_idem (ps : List JVal) :
    (ps.map sanitizePart).map sanitizePart = ps.map sanitizePart := by
  rw [List.map_map]
  exact List.map_congr_left (fun a _ => sanitizePart_idem a)

/-- `contentStep` touches only the `content` binding. -/
theorem getKey_contentStep_ne (l : List (String × JVal)) {k : String}
    (hk : k ≠ "content") : getKey (contentStep l) k = getKey l k := by
  unfold contentStep
  by_cases hc : truthy (getKey l "content")
  · simp only [hc, if_true]
    split
    · exact getKey_insertKV_ne _ _ hk
    · rfl
  · simp [hc]

/-- After `indexStep`, the `index` binding is defined. -/
theorem getKey_indexStep_index (l : List (String × JVal)) (i : Int) :
    isUndef (getKey (indexStep l i) "index") = false := by
  unfold indexStep
  by_cases h : isUndef (getKey l "index")
  · simp only [h, if_true, ite_true]
    rw [getKey_insertKV_self]
    rfl
  · simp only [Bool.not_eq_true] at h
    simp [h]

/-- `indexStep` is the identity when `index` is already defined. -/
theorem indexStep_of_defined (l : List (String × JVal)) (i : Int)
    (h : isUndef (getKey l "index") = false) : indexStep l i = l := by
  unfold indexStep
  simp [h]

/-- A value that is an array, destructed. -/
theorem isArr_iff (v : JVal) : isArr v = true ↔ ∃ xs, v = .arr xs := by
  cases v <;> simp [isArr]

/-- Only plain objects have non-`undefined` properties in this model. -/
theorem jget_ne_undef_obj {v : JVal} {k : String} (h : jget v k ≠ .undef) :
    ∃ fields, v = .obj fields := by
  cases v <;> simp [jget] at h ⊢

theorem contentStep_of_not_arr (l : List (String × JVal))
    (hna : isArr (jget (getKey l "content") "parts") = false) :
    contentStep l = l := by
  unfold contentStep
  by_cases hc : truthy (getKey l "content")
  · simp only [hc, if_true]
    split
    · rename_i parts hp
      rw [hp] at hna
      simp [isArr] at hna
    · rfl
  · simp [hc]

theorem contentStep_of_arr (l : List (String × JVal)) (parts : List JVal)
    (hc : truthy (getKey l "content") = true)
    (hp : jget (getKey l "content") "parts" = .arr parts) :
    contentStep l =
      insertKV l "content"
        (.obj (insertKV (spreadCopy (getKey l "content")) "parts"
          (.arr (parts.map sanitizePart)))) := by
  unfold contentStep
  simp only [hc, if_true, hp]

theorem contentStep_idem (l : List (String × JVal)) :
    contentStep (contentStep l) = contentStep l := by
  cases harr : isArr (jget (getKey l "content") "parts") with
  | false =>
      have h0 := contentStep_of_not_arr l harr
      rw [h0]
      exact h0
  | true =>
      obtain ⟨parts, hp⟩ := (isArr_iff _).mp harr
      have hobj : ∃ fields, getKey l "content" = .obj fields :=
        jget_ne_undef_obj (by rw [hp]; exact fun h => JVal.noConfusion h)
      obtain ⟨fields, hfields⟩ := hobj
      have hc : truthy (getKey l "content") = true := by rw [hfields]; rfl
      have h0 := contentStep_of_arr l parts hc hp
      rw [h0]
      have hget : getKey (insertKV l "content"
          (.obj (insertKV (spreadCopy (getKey l "content")) "parts"
            (.arr (parts.map sanitizePart))))) "content"
          = .obj (insertKV (spreadCopy (getKey l "content")) "parts"
            (.arr (parts.map sanitizePart))) := getKey_insertKV_self _ _ _
      have hc' : truthy (getKey (insertKV l "content"
          (.obj (insertKV (spreadCopy (getKey l "content")) "parts"
            (.arr (parts.map sanitizePart))))) "content") = true := by
        rw [hget]; rfl
      have hp' : jget (getKey (insertKV l "content"
          (.obj (insertKV (spreadCopy (getKey l "content")) "parts"
            (.arr (parts.map sanitizePart))))) "content") "parts"
          = .arr (parts.map sanitizePart) := by
        rw [hget]
        show getKey (insertKV (spreadCopy (getKey l "content")) "parts"
          (.arr (parts.map sanitizePart))) "parts" = _
        rw [getKey_insertKV_self]
      rw [contentStep_of_arr _ (parts.map sanitizePart) hc' hp', hget]
      show insertKV _ "content"
        (.obj (insertKV (insertKV (spreadCopy (getKey l "content")) "parts"
          (.arr (parts.map sanitizePart))) "parts"
          (.arr ((parts.map sanitizePart).map sanitizePart)))) = _
      rw [map_sanitizePart_idem, insertKV_insertKV_self, insertKV_insertKV_self]

theorem sanitizeFields_idem (l : List (String × JVal)) (i : Int) :
    sanitizeFields (sanitizeFields l i) i = sanitizeFields l i := by
  show contentStep (indexStep (contentStep (indexStep l i)) i)
      = contentStep (indexStep l i)
  rw [indexStep_of_defined _ i (by
    rw [getKey_contentStep_ne _ (by decide)]
    exact getKey_indexStep_index l i)]
  exact contentStep_idem _

/-- `indexStep` is `insertKV` of the resolved index value (claim phrasing:
"`index` equals the candidate's own `index` when that is defined and equals
the positional index otherwise"). -/
theorem insertKV_resolved_index (l : List (String × JVal)) (i : Int) :
    insertKV l "index"
      (if isUndef (getKey l "index") then JVal.num i else getKey l "index")
      = indexStep l i := by
  by_cases h : isUndef (getKey l "index")
  · simp [indexStep, h]
  · simp only [Bool.not_eq_true] at h
    simp only [indexStep, h, Bool.false_eq_true, ite_false]
    apply insertKV_getKey_self
    apply any_of_getKey_ne_undef
    intro he
    rw [he] at h
    exact absurd h (by simp [isUndef])

theorem getKey_indexStep_ne (l : List (String × JVal)) (i : Int) {k : String}
    (hk : k ≠ "index") : getKey (indexStep l i) k = getKey l k := by
  unfold indexStep
  split
  · exact getKey_insertKV_ne _ _ hk
  · rfl

/-- `contentStep` written as a single case split on `result.content.parts`
(the truthiness guard on `result.content` is redundant: a value with an
array-valued `parts` property is necessarily a truthy object). -/
theorem contentStep_claim (r : List (String × JVal)) :
    contentStep r =
      (match jget (getKey r "content") "parts" with
       | .arr parts =>
           insertKV r "content"
             (.obj (insertKV (spreadCopy (getKey r "content")) "parts"
               (.arr (parts.map sanitizePart))))
       | _ => r) := by
  cases harr : isArr (jget (getKey r "content") "parts") with
  | false =>
      rw [contentStep_of_not_arr r harr]
      split
      · rename_i parts hp
        rw [hp] at harr
        simp [isArr] at harr
      · rfl
  | true =>
      obtain ⟨parts, hp⟩ := (isArr_iff _).mp harr
      obtain ⟨fields, hf⟩ :=
        jget_ne_undef_obj (k := "parts") (v := getKey r "content")
          (by rw [hp]; exact fun h => JVal.noConfusion h)
      have hc : truthy (getKey r "content") = true := by rw [hf]; rfl
      rw [contentStep_of_arr r parts hc hp, hp]

/-- `sanitizeFields` written the way the claim describes the copied body:
one case split on `content.parts`, with the resolved index written
unconditionally. -/
theorem sanitizeFields_eq_claimBody (copy : List (String × JVal)) (i : Int) :
    sanitizeFields copy i =
      (match jget (getKey copy "content") "parts" with
       | .arr parts =>
           insertKV (indexStep copy i) "content"
             (.obj (insertKV (spreadCopy (getKey copy "content")) "parts"
               (.arr (parts.map sanitizePart))))
       | _ => indexStep copy i) := by
  show contentStep (indexStep copy i) = _
  rw [contentStep_claim (indexStep copy i), getKey_indexStep_ne copy i (by decide)]

/-- `sanitizeCandidate` agrees with the claim's field-by-field recipe. -/
theorem sanitizeCandidate_eq_claimSpec (c : JVal) (i : Int) :
    sanitizeCandidate c i = sanitizeCandidateClaimSpec c i := by
  cases c with
  | null => rfl
  | undef => rfl
  | bool b => cases b <;> rfl
  | num n =>
      simp [sanitizeCandidate, sanitizeCandidateClaimSpec, typeofObject]
  | str s =>
      simp [sanitizeCandidate, sanitizeCandidateClaimSpec, typeofObject]
  | arr xs =>
      simp only [sanitizeCandidate, sanitizeCandidateClaimSpec, truthy,
        typeofObject, isNull, Bool.not_true, Bool.or_false, Bool.false_or,
        Bool.not_false, Bool.or_self, ite_false, Bool.false_eq_true]
      rw [sanitizeFields_eq_claimBody, ← insertKV_resolved_index]
      split <;> rfl
  | obj fs =>
      simp only [sanitizeCandidate, sanitizeCandidateClaimSpec, truthy,
        typeofObject, isNull, Bool.not_true, Bool.or_false, Bool.false_or,
        Bool.not_false, Bool.or_self, ite_false, Bool.false_eq_true]
      rw [sanitizeFields_eq_claimBody, ← insertKV_resolved_index]
      split <;> rfl

theorem sanitizeCandidate_idem (c : JVal) (i : Int) :
    sanitizeCandidate (sanitizeCandidate c i) i = sanitizeCandidate c i := by
  cases c with
  | null => rfl
  | undef => rfl
  | bool b => cases b <;> rfl
  | num n => simp [sanitizeCandidate, typeofObject]
  | str s => simp [sanitizeCandidate, typeofObject]
  | arr xs =>
      simp only [sanitizeCandidate, truthy, typeofObject, Bool.not_true,
        Bool.false_or, Bool.or_false, Bool.not_false, ite_false, ite_true,
        Bool.false_eq_true, spreadCopy]
      rw [sanitizeFields_idem]
  | obj fs =>
      simp only [sanitizeCandidate, truthy, typeofObject, Bool.not_true,
        Bool.false_or, Bool.or_false, Bool.not_false, ite_false, ite_true,
        Bool.false_eq_true, spreadCopy]
      rw [sanitizeFields_idem]

/-! ## The response extractor against the claim recipes -/

theorem jget_of_falsy {v : JVal} (h : truthy v = false) (k : String) :
    jget v k = .undef := by
  cases v <;> first | rfl | simp [truthy] at h

theorem sanitizeAll_eq_mapIdx (cs : List JVal) : ∀ i : Int,
    sanitizeAll i cs = cs.mapIdx (fun j c => sanitizeCandidate c (i + j)) := by
  induction cs with
  | nil => intro i; rfl
  | cons c cs ih =>
      intro i
      rw [List.mapIdx_cons]
      show sanitizeCandidate c i :: sanitizeAll (i + 1) cs = _
      have harg : i + ((0 : Nat) : Int) = i := by norm_num
      rw [harg, ih (i + 1)]
      have hfun : (fun (j : Nat) (c : JVal) => sanitizeCandidate c (i + 1 + j))
          = fun (j : Nat) (c : JVal) => sanitizeCandidate c (i + (j + 1 : Nat)) := by
        funext j c
        congr 1
        push_cast
        ring
      rw [hfun]

theorem sanitizeAll_zero (cs : List JVal) :
    sanitizeAll 0 cs = cs.mapIdx (fun j c => sanitizeCandidate c j) := by
  rw [sanitizeAll_eq_mapIdx cs 0]
  have hfun : (fun (j : Nat) (c : JVal) => sanitizeCandidate c (0 + j))
      = fun (j : Nat) (c : JVal) => sanitizeCandidate c j := by
    funext j c
    congr 1
    omega
  rw [hfun]

theorem extractGeminiResponse_eq_amendedSpec (r : JVal) :
    extractGeminiResponse r = extractResponseAmendedSpec r := by
  unfold extractGeminiResponse extractResponseAmendedSpec
  by_cases ht :
      truthy (if truthy r && truthy (jget r "response")
              then jget r "response" else r)
  · simp only [ht, Bool.not_true, Bool.false_eq_true, ite_false]
    cases h : jget (if truthy r && truthy (jget r "response")
        then jget r "response" else r) "candidates" <;>
      simp [sanitizeAll_zero]
  · simp only [Bool.not_eq_true] at ht
    simp only [ht, Bool.not_false, ite_true]
    rw [jget_of_falsy ht]

/-! ## Spread-merge lemmas and the shape of the converted request -/

theorem spreadInto_cons (base : List (String × JVal)) (p : String × JVal)
    (more : List (String × JVal)) :
    spreadInto base (p :: more) = spreadInto (insertKV base p.1 p.2) more := rfl

theorem getKey_spreadInto_not_mem (base : List (String × JVal)) (k : String) :
    ∀ more : List (String × JVal), (∀ p ∈ more, p.1 ≠ k) →
      getKey (spreadInto base more) k = getKey base k := by
  intro more
  induction more generalizing base with
  | nil => intro _; rfl
  | cons p more ih =>
      intro h
      rw [spreadInto_cons, ih _ (fun q hq => h q (List.mem_cons_of_mem _ hq))]
      exact getKey_insertKV_ne _ _ (fun e => h p (List.mem_cons_self _ _) e.symm)

theorem getKey_eq_undef_of_lookup_none {l : List (String × JVal)} {k : String}
    (h : l.lookup k = none) : getKey l k = .undef := by
  induction l with
  | nil => rfl
  | cons p l ih =>
      cases p with
      | mk k₀ v₀ =>
          by_cases hk : k = k₀
          · simp [List.lookup, hk] at h
          · have hk' : (k == k₀) = false := by simp [hk]
            simp only [List.lookup, hk'] at h
            have : ¬ (k₀ = k) := fun e => hk e.symm
            simp [getKey, this, ih h]

theorem lookup_eq_some_of_mem {l : List (String × JVal)}
    (hnd : (l.map Prod.fst).Nodup) {p : String × JVal} (hp : p ∈ l) :
    l.lookup p.1 = some p.2 := by
  induction l with
  | nil => simp at hp
  | cons q l ih =>
      rcases List.mem_cons.mp hp with rfl | hmem
      · simp [List.lookup]
      · have hq : q.1 ≠ p.1 := by
          intro e
          have : p.1 ∈ l.map Prod.fst := List.mem_map_of_mem _ hmem
          rw [← e] at this
          exact (List.nodup_cons.mp hnd).1 this
        have hq' : (p.1 == q.1) = false := by
          simp only [beq_eq_false_iff_ne, ne_eq]
          exact fun e => hq e.symm
        simp only [List.lookup, hq']
        exact ih (List.nodup_cons.mp hnd).2 hmem

theorem mem_keys_of_lookup_eq_some {l : List (String × JVal)} {k : String}
    {v : JVal} (h : l.lookup k = some v) : k ∈ l.map Prod.fst := by
  induction l with
  | nil => simp [List.lookup] at h
  | cons q l ih =>
      by_cases hq : k = q.1
      · simp [hq]
      · have hq' : (k == q.1) = false := by simp [hq]
        simp only [List.lookup, hq'] at h
        simp [ih h]

/-- Reading a key out of a later-wins spread merge: a binding in `more`
(whose keys are duplicate-free) wins, otherwise the base value is read. -/
theorem getKey_spreadInto (base : List (String × JVal)) (k : String) :
    ∀ more : List (String × JVal), (more.map Prod.fst).Nodup →
      getKey (spreadInto base more) k =
        (match more.lookup k with
         | some v => v
         | none => getKey base k) := by
  intro more
  induction more generalizing base with
  | nil => intro _; rfl
  | cons p more ih =>
      intro hnd
      cases p with
      | mk k₀ v₀ =>
          rw [spreadInto_cons, ih _ (List.nodup_cons.mp hnd).2]
          by_cases hk : k = k₀
          · subst hk
            have hnone : more.lookup k = none := by
              rcases h : more.lookup k with _ | v
              · rfl
              · exact absurd (mem_keys_of_lookup_eq_some h)
                  (List.nodup_cons.mp hnd).1
            rw [hnone]
            simp only [List.lookup, beq_self_eq_true]
            exact getKey_insertKV_self base k v₀
          · have hk' : (k == k₀) = false := by simp [hk]
            simp only [List.lookup, hk']
            rcases h : more.lookup k with _ | v
            · exact getKey_insertKV_ne base v₀ hk
            · rfl

/-- The converted request, written out, for object-shaped request and
token (the only hazard left is a `null`-valued `generationConfig`). -/
theorem convert_obj_eq (cfg : Config) (reqId model : JVal)
    (grl tokl : List (String × JVal))
    (hgc : isNull (undefDefault (getKey grl "generationConfig") (.obj [])) = false) :
    convertGeminiToAntigravity cfg reqId model (.obj grl) (.obj tokl)
      = some (.obj
        [("project", getKey tokl "projectId"),
         ("requestId", reqId),
         ("request", .obj (spreadInto
            [("contents", undefDefault (getKey grl "contents") (.arr [])),
             ("systemInstruction",
               finalSystemInstruction cfg (getKey grl "systemInstruction")),
             ("generationConfig", mergedGenerationConfig cfg
               (undefDefault (getKey grl "generationConfig") (.obj []))),
             ("sessionId", getKey tokl "sessionId")]
            (grl.filter (fun p => p.1 ∉ destructuredKeys)))),
         ("model", model),
         ("userAgent", .str "antigravity")]) := by
  unfold convertGeminiToAntigravity
  simp only [nullish, jget, spreadCopy, hgc, Bool.false_eq_true, ite_false,
    if_false]

/-- The `request.*` object of the converted request. -/
theorem convert_request_eq (cfg : Config) (reqId model : JVal)
    (grl tokl : List (String × JVal))
    (hgc : isNull (undefDefault (getKey grl "generationConfig") (.obj [])) = false) :
    jget ((convertGeminiToAntigravity cfg reqId model
        (.obj grl) (.obj tokl)).getD .null) "request"
      = .obj (spreadInto
          [("contents", undefDefault (getKey grl "contents") (.arr [])),
           ("systemInstruction",
             finalSystemInstruction cfg (getKey grl "systemInstruction")),
           ("generationConfig", mergedGenerationConfig cfg
             (undefDefault (getKey grl "generationConfig") (.obj []))),
           ("sessionId", getKey tokl "sessionId")]
          (grl.filter (fun p => p.1 ∉ destructuredKeys))) := by
  rw [convert_obj_eq cfg reqId model grl tokl hgc]
  rfl

/-- Every binding surviving the `...rest` destructuring has a key outside
the four destructured ones. -/
theorem rest_keys_ne (grl : List (String × JVal)) (k : String)
    (hk : k ∈ destructuredKeys) :
    ∀ p ∈ grl.filter (fun p => p.1 ∉ destructuredKeys), p.1 ≠ k := by
  intro p hp e
  have hmem := (List.mem_filter.mp hp).2
  rw [e] at hmem
  simp only [decide_eq_true_eq] at hmem
  exact hmem hk

/-- Field-by-field resolution of the merged generation config: an
explicitly supplied key wins; an absent one falls back to the configured
default, except `candidateCount` whose fallback is the literal 1. -/
theorem merged_lookup (cfg : Config) (gcl : List (String × JVal))
    (hnd : (gcl.map Prod.fst).Nodup) (k : String) (hk : k ∈ namedConfigKeys) :
    jget (mergedGenerationConfig cfg (.obj gcl)) k =
      (match gcl.lookup k with
       | some v => v
       | none => if k = "candidateCount" then JVal.num 1
                 else cfgDefault cfg k) := by
  unfold mergedGenerationConfig
  simp only [jget, spreadCopy]
  rw [getKey_spreadInto _ _ gcl hnd]
  rcases h : gcl.lookup k with _ | v
  · have hu : getKey gcl k = JVal.undef := getKey_eq_undef_of_lookup_none h
    simp only [namedConfigKeys, List.mem_cons, List.not_mem_nil, or_false]
      at hk
    rcases hk with rfl | rfl | rfl | rfl | rfl
    · show nullishCoalesce (getKey gcl "topP") cfg.top_p = _
      rw [hu]
      rfl
    · show nullishCoalesce (getKey gcl "topK") cfg.top_k = _
      rw [hu]
      rfl
    · show nullishCoalesce (getKey gcl "temperature") cfg.temperature = _
      rw [hu]
      rfl
    · show nullishCoalesce (getKey gcl "maxOutputTokens") cfg.max_tokens = _
      rw [hu]
      rfl
    · show nullishCoalesce (getKey gcl "candidateCount") (.num 1) = _
      rw [hu]
      rfl
  · rfl

/-- `request.generationConfig` of the converted request is the merged
generation config of the supplied one. -/
theorem convert_generationConfig_eq (cfg : Config) (reqId model : JVal)
    (grl tokl gcl : List (String × JVal))
    (hgc : getKey grl "generationConfig" = .obj gcl) :
    jget (jget ((convertGeminiToAntigravity cfg reqId model
        (.obj grl) (.obj tokl)).getD .null) "request") "generationConfig"
      = mergedGenerationConfig cfg (.obj gcl) := by
  have hnn : isNull (undefDefault (getKey grl "generationConfig") (.obj []))
      = false := by rw [hgc]; rfl
  rw [convert_request_eq cfg reqId model grl tokl hnn]
  simp only [jget]
  rw [getKey_spreadInto_not_mem _ _ _ (rest_keys_ne grl _ (by decide))]
  rw [show getKey
      [("contents", undefDefault (getKey grl "contents") (.arr [])),
       ("systemInstruction",
         finalSystemInstruction cfg (getKey grl "systemInstruction")),
       ("generationConfig", mergedGenerationConfig cfg
         (undefDefault (getKey grl "generationConfig") (.obj []))),
       ("sessionId", getKey tokl "sessionId")] "generationConfig"
      = mergedGenerationConfig cfg
          (undefDefault (getKey grl "generationConfig") (.obj [])) from rfl]
  rw [hgc]
  rfl

theorem any_key_insertKV (l : List (String × JVal)) (k : String) (v : JVal)
    (k' : String) :
    (insertKV l k v).any (fun p => p.1 = k')
      = (l.any (fun p => p.1 = k') || decide (k = k')) := by
  induction l with
  | nil => simp [insertKV]
  | cons p l ih =>
      by_cases hp : p.1 = k
      · by_cases hk : k = k' <;> simp [insertKV, hp, hk]
      · simp [insertKV, hp, ih, Bool.or_assoc]

theorem any_key_spreadInto (k' : String) :
    ∀ (more base : List (String × JVal)),
      (spreadInto base more).any (fun p => p.1 = k')
        = (base.any (fun p => p.1 = k') || more.any (fun p => p.1 = k')) := by
  intro more
  induction more with
  | nil => intro base; simp [spreadInto]
  | cons p more ih =>
      intro base
      rw [spreadInto_cons, ih, any_key_insertKV]
      simp [Bool.or_assoc]

/-- The source's `systemInstruction` resolution is exactly the amended
claim's recipe (truthiness-based role/parts fallbacks). -/
theorem finalSystemInstruction_eq_amendedSpec (cfg : Config) (si : JVal) :
    finalSystemInstruction cfg si = systemInstructionAmendedSpec cfg si := rfl

theorem isNull_undefDefault (x : JVal) :
    isNull (undefDefault x (.obj [])) = isNull x := by
  cases x <;> rfl

/-- Exactly when `convertGeminiToAntigravity` completes: the request and
token are non-nullish and the request's `generationConfig` field is not
`null`. -/
theorem convert_isSome_iff (cfg : Config) (reqId model gr tok : JVal) :
    (convertGeminiToAntigravity cfg reqId model gr tok).isSome
      = (!nullish gr && !nullish tok
          && !isNull (jget gr "generationConfig")) := by
  unfold convertGeminiToAntigravity
  by_cases h1 : nullish gr
  · simp [h1]
  · simp only [Bool.not_eq_true] at h1
    by_cases h2 : isNull (undefDefault (jget gr "generationConfig") (.obj []))
    · have h2' := h2
      rw [isNull_undefDefault] at h2'
      simp [h1, h2, h2']
    · simp only [Bool.not_eq_true] at h2
      have h2' := h2
      rw [isNull_undefDefault] at h2'
      by_cases h3 : nullish tok
      · simp [h1, h2, h2', h3]
      · simp only [Bool.not_eq_true] at h3
        simp [h1, h2, h2', h3]

/-- When it completes, the converter produces the five-field internal
request shape. -/
theorem convert_shape (cfg : Config) (reqId model gr tok : JVal) :
    (match convertGeminiToAntigravity cfg reqId model gr tok with
     | some out => topKeys out
         = ["project", "requestId", "request", "model", "userAgent"]
     | none => True) := by
  unfold convertGeminiToAntigravity
  by_cases h1 : nullish gr
  · simp [h1]
  · simp only [Bool.not_eq_true] at h1
    by_cases h2 : isNull (undefDefault (jget gr "generationConfig") (.obj []))
    · simp [h1, h2]
    · simp only [Bool.not_eq_true] at h2
      by_cases h3 : nullish tok
      · simp [h1, h2, h3]
      · simp only [Bool.not_eq_true] at h3
        simp [h1, h2, h3, topKeys]

/-! ## Digit and number lemmas -/

theorem natCharsAux_irrel : ∀ (n f₁ f₂ : Nat), n < f₁ → n < f₂ →
    natCharsAux f₁ n = natCharsAux f₂ n := by
  intro n
  induction n using Nat.strong_induction_on with
  | _ n ih =>
      intro f₁ f₂ h₁ h₂
      cases f₁ with
      | zero => omega
      | succ g₁ =>
          cases f₂ with
          | zero => omega
          | succ g₂ =>
              by_cases hn : n < 10
              · simp [natCharsAux, hn]
              · have hdiv : n / 10 < n := Nat.div_lt_self (by omega) (by omega)
                simp only [natCharsAux, hn, if_false, ite_false]
                rw [ih (n / 10) hdiv g₁ g₂ (by omega) (by omega)]

/-- The defining recursion of `natChars`. -/
theorem natChars_eq (n : Nat) :
    natChars n =
      (if n < 10 then [digitChar n]
       else natChars (n / 10) ++ [digitChar (n % 10)]) := by
  show natCharsAux (n + 1) n = _
  by_cases hn : n < 10
  · simp [natCharsAux, hn]
  · have hdiv : n / 10 < n := Nat.div_lt_self (by omega) (by omega)
    simp only [natCharsAux, hn, if_false, ite_false]
    rw [natCharsAux_irrel (n / 10) n (n / 10 + 1) (by omega) (by omega)]
    rfl

/-- Facts about decimal digit characters, by finite check: they are
digits, not whitespace, and none of the parser's dispatch characters. -/
theorem digitChar_facts : ∀ d, d < 10 →
    (digitChar d).isDigit = true ∧ isWs (digitChar d) = false
    ∧ ¬(digitChar d = 'n') ∧ ¬(digitChar d = 't') ∧ ¬(digitChar d = 'f')
    ∧ ¬(digitChar d = '"') ∧ ¬(digitChar d = '[') ∧ ¬(digitChar d = '{')
    ∧ ¬(digitChar d = '-') ∧ ¬(digitChar d = ']') ∧ ¬(digitChar d = '}')
    ∧ (digitChar d).toNat = 48 + d := by decide

/-- Every character of `natChars n` is a digit character. -/
theorem natChars_form : ∀ n, ∀ c ∈ natChars n, ∃ d, d < 10 ∧ c = digitChar d := by
  intro n
  induction n using Nat.strong_induction_on with
  | _ n ih =>
      intro c hc
      rw [natChars_eq] at hc
      by_cases hn : n < 10
      · simp only [hn, if_true, ite_true, List.mem_singleton] at hc
        exact ⟨n, hn, hc⟩
      · have hdiv : n / 10 < n := Nat.div_lt_self (by omega) (by omega)
        simp only [hn, if_false, ite_false, Bool.false_eq_true,
          List.mem_append, List.mem_singleton] at hc
        rcases hc with hc | hc
        · exact ih (n / 10) hdiv c hc
        · exact ⟨n % 10, Nat.mod_lt _ (by omega), hc⟩

theorem natChars_ne_nil (n : Nat) : natChars n ≠ [] := by
  rw [natChars_eq]
  by_cases hn : n < 10 <;> simp [hn]

theorem digitsVal_append (a b : List Char) (acc : Nat) :
    digitsVal (a ++ b) acc = digitsVal b (digitsVal a acc) :=
  List.foldl_append _ _ _ _

theorem digitsVal_natChars : ∀ n acc,
    digitsVal (natChars n) acc = acc * 10 ^ (natChars n).length + n := by
  intro n
  induction n using Nat.strong_induction_on with
  | _ n ih =>
      intro acc
      rw [natChars_eq]
      by_cases hn : n < 10
      · simp only [hn, if_true, ite_true]
        show acc * 10 + ((digitChar n).toNat - 48) = acc * 10 ^ 1 + n
        rw [(digitChar_facts n hn).2.2.2.2.2.2.2.2.2.2.2]
        simp [pow_one]
      · have hdiv : n / 10 < n := Nat.div_lt_self (by omega) (by omega)
        simp only [hn, if_false, ite_false, Bool.false_eq_true]
        rw [digitsVal_append, ih (n / 10) hdiv acc]
        show (acc * 10 ^ (natChars (n / 10)).length + n / 10) * 10
            + ((digitChar (n % 10)).toNat - 48) = _
        rw [(digitChar_facts (n % 10) (Nat.mod_lt _ (by omega))).2.2.2.2.2.2.2.2.2.2.2]
        simp only [List.length_append, List.length_singleton]
        rw [pow_succ]
        have := Nat.div_add_mod n 10
        ring_nf
        omega

theorem natChars_val (n : Nat) : digitsVal (natChars n) 0 = n := by
  rw [digitsVal_natChars]
  simp

theorem natChars_injective {a b : Nat} (h : natChars a = natChars b) :
    a = b := by
  have ha := natChars_val a
  rw [h, natChars_val] at ha
  omega

/-- Greedy digit consumption stops exactly at the first non-digit. -/
theorem parseDigits_digits : ∀ ds : List Char, (∀ c ∈ ds, c.isDigit = true) →
    ∀ acc (rest : List Char),
      (∀ c cs, rest = c :: cs → c.isDigit = false) →
      parseDigits (ds ++ rest) acc = (digitsVal ds acc, rest) := by
  intro ds
  induction ds with
  | nil =>
      intro _ acc rest hrest
      cases rest with
      | nil => rfl
      | cons c cs =>
          simp only [List.nil_append, parseDigits, hrest c cs rfl,
            Bool.false_eq_true, ite_false]
          rfl
  | cons d ds ih =>
      intro hds acc rest hrest
      have hd : d.isDigit = true := hds d (List.mem_cons_self _ _)
      simp only [List.cons_append, parseDigits, hd, ite_true]
      exact ih (fun c hc => hds c (List.mem_cons_of_mem _ hc)) _ rest hrest

theorem parseNum_natChars (n : Nat) (rest : List Char)
    (hrest : ∀ c cs, rest = c :: cs → c.isDigit = false) :
    parseNum (natChars n ++ rest) = some (n, rest) := by
  cases hch : natChars n with
  | nil => exact absurd hch (natChars_ne_nil n)
  | cons c tl =>
      have hc : c.isDigit = true := by
        obtain ⟨d, hd, rfl⟩ :=
          natChars_form n c (by rw [hch]; exact List.mem_cons_self _ _)
        exact (digitChar_facts d hd).1
      simp only [List.cons_append, parseNum, hc, ite_true]
      rw [← List.cons_append, ← hch,
        parseDigits_digits (natChars n)
          (fun x hx => by
            obtain ⟨d, hd, rfl⟩ := natChars_form n x hx
            exact (digitChar_facts d hd).1)
          0 rest hrest, natChars_val]

theorem hexDigitVal_hexDigitChar : ∀ d, d < 16 →
    hexDigitVal (hexDigitChar d) = some d := by decide

/-- A non-quote, non-backslash, non-control character is consumed
verbatim. -/
theorem parseStr_plain (c : Char) (tl acc : List Char)
    (h1 : ¬ c = '"') (h2 : ¬ c = '\\') (h8 : ¬ c.toNat < 32) :
    parseStr (c :: tl) acc = parseStr tl (c :: acc) := by
  rw [parseStr.eq_def]
  simp only [h1, h2, h8, if_false, ite_false]

theorem parseStr_close (tl acc : List Char) :
    parseStr ('"' :: tl) acc = some (String.mk acc.reverse, tl) := by
  rw [parseStr.eq_def]
  simp

theorem parseStr_esc_quote (tl acc : List Char) :
    parseStr ('\\' :: '"' :: tl) acc = parseStr tl ('"' :: acc) := by
  rw [parseStr.eq_def]
  simp

theorem parseStr_esc_bs (tl acc : List Char) :
    parseStr ('\\' :: '\\' :: tl) acc = parseStr tl ('\\' :: acc) := by
  rw [parseStr.eq_def]
  simp

theorem parseStr_esc_b (tl acc : List Char) :
    parseStr ('\\' :: 'b' :: tl) acc = parseStr tl ('\x08' :: acc) := by
  rw [parseStr.eq_def]
  simp

theorem parseStr_esc_t (tl acc : List Char) :
    parseStr ('\\' :: 't' :: tl) acc = parseStr tl ('\t' :: acc) := by
  rw [parseStr.eq_def]
  simp

theorem parseStr_esc_n (tl acc : List Char) :
    parseStr ('\\' :: 'n' :: tl) acc = parseStr tl ('\n' :: acc) := by
  rw [parseStr.eq_def]
  simp

theorem parseStr_esc_f (tl acc : List Char) :
    parseStr ('\\' :: 'f' :: tl) acc = parseStr tl ('\x0c' :: acc) := by
  rw [parseStr.eq_def]
  simp

theorem parseStr_esc_r (tl acc : List Char) :
    parseStr ('\\' :: 'r' :: tl) acc = parseStr tl ('\r' :: acc) := by
  rw [parseStr.eq_def]
  simp

/-- A `\u` escape is decoded from its four hex digits. -/
theorem parseStr_u (h1 h2 h3 h4 : Char) (a b c2 d : Nat)
    (tl acc : List Char)
    (e1 : hexDigitVal h1 = some a) (e2 : hexDigitVal h2 = some b)
    (e3 : hexDigitVal h3 = some c2) (e4 : hexDigitVal h4 = some d) :
    parseStr ('\\' :: 'u' :: h1 :: h2 :: h3 :: h4 :: tl) acc
      = parseStr tl (Char.ofNat (((a * 16 + b) * 16 + c2) * 16 + d) :: acc) := by
  show (match hexDigitVal h1, hexDigitVal h2, hexDigitVal h3,
      hexDigitVal h4 with
    | some a, some b, some c2, some d =>
        parseStr tl (Char.ofNat (((a * 16 + b) * 16 + c2) * 16 + d) :: acc)
    | _, _, _, _ => none) = _
  rw [e1, e2, e3, e4]

/-- Unescaping inverts `JSON.stringify`'s string escaping. -/
theorem parseStr_escList : ∀ (cs acc rest : List Char),
    parseStr (escList cs ++ '"' :: rest) acc
      = some (String.mk (acc.reverse ++ cs), rest) := by
  intro cs
  induction cs with
  | nil =>
      intro acc rest
      rw [show escList [] ++ '"' :: rest = '"' :: rest from rfl,
        parseStr_close, List.append_nil]
  | cons c cs ih =>
      intro acc rest
      have hgen : parseStr (escList cs ++ '"' :: rest) (c :: acc)
          = some (String.mk (acc.reverse ++ c :: cs), rest) := by
        rw [ih]
        simp
      have hsplit : ∀ pre : List Char, escChar c = pre →
          escList (c :: cs) ++ '"' :: rest
            = pre ++ (escList cs ++ '"' :: rest) := by
        intro pre hpre
        show (escChar c ++ escList cs) ++ '"' :: rest = _
        rw [hpre, List.append_assoc]
      by_cases h1 : c = '"'
      · subst h1
        rw [hsplit ['\\', '"'] rfl]
        simp only [List.cons_append, List.nil_append]
        rw [parseStr_esc_quote]
        exact hgen
      by_cases h2 : c = '\\'
      · subst h2
        rw [hsplit ['\\', '\\'] rfl]
        simp only [List.cons_append, List.nil_append]
        rw [parseStr_esc_bs]
        exact hgen
      by_cases h3 : c = '\x08'
      · subst h3
        rw [hsplit ['\\', 'b'] rfl]
        simp only [List.cons_append, List.nil_append]
        rw [parseStr_esc_b]
        exact hgen
      by_cases h4 : c = '\t'
      · subst h4
        rw [hsplit ['\\', 't'] rfl]
        simp only [List.cons_append, List.nil_append]
        rw [parseStr_esc_t]
        exact hgen
      by_cases h5 : c = '\n'
      · subst h5
        rw [hsplit ['\\', 'n'] rfl]
        simp only [List.cons_append, List.nil_append]
        rw [parseStr_esc_n]
        exact hgen
      by_cases h6 : c = '\x0c'
      · subst h6
        rw [hsplit ['\\', 'f'] rfl]
        simp only [List.cons_append, List.nil_append]
        rw [parseStr_esc_f]
        exact hgen
      by_cases h7 : c = '\r'
      · subst h7
        rw [hsplit ['\\', 'r'] rfl]
        simp only [List.cons_append, List.nil_append]
        rw [parseStr_esc_r]
        exact hgen
      by_cases h8 : c.toNat < 32
      · rw [hsplit ['\\', 'u', '0', '0', hexDigitChar (c.toNat / 16),
          hexDigitChar (c.toNat % 16)] (by
            simp [escChar, h1, h2, h3, h4, h5, h6, h7, h8])]
        simp only [List.cons_append, List.nil_append]
        rw [parseStr_u '0' '0' (hexDigitChar (c.toNat / 16))
          (hexDigitChar (c.toNat % 16)) 0 0 (c.toNat / 16) (c.toNat % 16)
          _ _ rfl rfl
          (hexDigitVal_hexDigitChar (c.toNat / 16) (by omega))
          (hexDigitVal_hexDigitChar (c.toNat % 16) (by omega))]
        rw [show ((0 * 16 + 0) * 16 + c.toNat / 16) * 16 + c.toNat % 16
            = c.toNat by omega]
        rw [Char.ofNat_toNat]
        exact hgen
      · rw [hsplit [c] (by simp [escChar, h1, h2, h3, h4, h5, h6, h7, h8])]
        simp only [List.cons_append, List.nil_append]
        rw [parseStr_plain c _ acc h1 h2 h8]
        exact hgen

/-! ## Parser dispatch lemmas -/

theorem skipWs_cons_of_not_ws {c : Char} (h : isWs c = false)
    (t : List Char) : skipWs (c :: t) = c :: t := by
  simp [skipWs, h]

theorem expectChars_self : ∀ (es rest : List Char),
    expectChars es (es ++ rest) = some rest := by
  intro es
  induction es with
  | nil => intro rest; rfl
  | cons e es ih => intro rest; simp [expectChars, ih]

theorem parseVal_n (fuel : Nat) (tl : List Char) :
    parseVal (fuel + 1) ('n' :: tl)
      = (expectChars ['u', 'l', 'l'] tl).map (fun r => (JVal.null, r)) := by
  simp [parseVal, skipWs, isWs]

theorem parseVal_t (fuel : Nat) (tl : List Char) :
    parseVal (fuel + 1) ('t' :: tl)
      = (expectChars ['r', 'u', 'e'] tl).map (fun r => (JVal.bool true, r)) := by
  simp [parseVal, skipWs, isWs]

theorem parseVal_f (fuel : Nat) (tl : List Char) :
    parseVal (fuel + 1) ('f' :: tl)
      = (expectChars ['a', 'l', 's', 'e'] tl).map
          (fun r => (JVal.bool false, r)) := by
  simp [parseVal, skipWs, isWs]

theorem parseVal_quote (fuel : Nat) (tl : List Char) :
    parseVal (fuel + 1) ('"' :: tl)
      = (parseStr tl []).map (fun p => (JVal.str p.1, p.2)) := by
  simp [parseVal, skipWs, isWs]

theorem parseVal_lbrack (fuel : Nat) (tl : List Char) :
    parseVal (fuel + 1) ('[' :: tl)
      = (match skipWs tl with
         | ']' :: rest2 => some (JVal.arr [], rest2)
         | _ => (parseArrItems fuel tl).map (fun p => (JVal.arr p.1, p.2))) := by
  simp [parseVal, skipWs, isWs]

theorem parseVal_lbrace (fuel : Nat) (tl : List Char) :
    parseVal (fuel + 1) ('{' :: tl)
      = (match skipWs tl with
         | '}' :: rest2 => some (JVal.obj [], rest2)
         | _ => (parseObjItems fuel [] tl).map
             (fun p => (JVal.obj p.1, p.2))) := by
  simp [parseVal, skipWs, isWs]

theorem parseVal_dash (fuel : Nat) (tl : List Char) :
    parseVal (fuel + 1) ('-' :: tl)
      = (parseNum tl).map (fun p => (JVal.num (-(p.1 : Int)), p.2)) := by
  simp [parseVal, skipWs, isWs]

theorem parseVal_digitChar (fuel : Nat) (tl : List Char) (d : Nat)
    (hd : d < 10) :
    parseVal (fuel + 1) (digitChar d :: tl)
      = (parseNum (digitChar d :: tl)).map
          (fun p => (JVal.num (p.1 : Int), p.2)) := by
  obtain ⟨hdig, hws, hn, ht, hf, hq, hlb, hlc, hdash, _, _, _⟩ :=
    digitChar_facts d hd
  simp only [parseVal]
  rw [skipWs_cons_of_not_ws hws]
  simp only [hdig, hn, ht, hf, hq, hlb, hlc, hdash, if_false, ite_false,
    ite_true]

/-! ## Serialization heads and fuel bounds -/

/-- The first character of any serialized value: present, not whitespace,
and not a closing bracket/brace. -/
theorem stringifyChars_head (v : JVal) :
    ∃ c tl, stringifyChars v = c :: tl ∧ isWs c = false
      ∧ ¬ c = ']' ∧ ¬ c = '}' := by
  cases v with
  | null => exact ⟨'n', _, rfl, by decide, by decide, by decide⟩
  | undef => exact ⟨'n', _, rfl, by decide, by decide, by decide⟩
  | bool b =>
      cases b with
      | false => exact ⟨'f', _, rfl, by decide, by decide, by decide⟩
      | true => exact ⟨'t', _, rfl, by decide, by decide, by decide⟩
  | num n =>
      show ∃ c tl, intChars n = c :: tl ∧ _
      by_cases hneg : n < 0
      · refine ⟨'-', natChars n.natAbs, ?_, by decide, by decide, by decide⟩
        simp [intChars, hneg]
      · cases hch : natChars n.toNat with
        | nil => exact absurd hch (natChars_ne_nil _)
        | cons c tl =>
            obtain ⟨d, hd, rfl⟩ := natChars_form _ c
              (by rw [hch]; exact List.mem_cons_self _ _)
            obtain ⟨_, hws, _, _, _, _, _, _, _, hrb, hrc, _⟩ :=
              digitChar_facts d hd
            refine ⟨digitChar d, tl, ?_, hws, hrb, hrc⟩
            simp [intChars, hneg, hch]
  | str s => exact ⟨'"', _, rfl, by decide, by decide, by decide⟩
  | arr xs => exact ⟨'[', _, rfl, by decide, by decide, by decide⟩
  | obj l => exact ⟨'{', _, rfl, by decide, by decide, by decide⟩

theorem stringify_len_pos (v : JVal) : 1 ≤ (stringifyChars v).length := by
  obtain ⟨c, tl, heq, -, -, -⟩ := stringifyChars_head v
  rw [heq]
  simp

mutual

theorem pm_le (v : JVal) : pm v ≤ 2 * (stringifyChars v).length := by
  cases v with
  | arr xs =>
      have h := pmArr_le xs
      have hlen : (stringifyChars (.arr xs)).length
          = (stringifyArr xs).length + 2 := by
        show ('[' :: stringifyArr xs ++ [']']).length = _
        simp
      rw [hlen]
      show pmArr xs + 1 ≤ _
      omega
  | obj l =>
      have h := pmObj_le l
      have hlen : (stringifyChars (.obj l)).length
          = (stringifyObj l).length + 2 := by
        show ('{' :: stringifyObj l ++ ['}']).length = _
        simp
      rw [hlen]
      show pmObj l + 1 ≤ _
      omega
  | null => have := stringify_len_pos .null; show 1 ≤ _; omega
  | undef => have := stringify_len_pos .undef; show 1 ≤ _; omega
  | bool b => have := stringify_len_pos (.bool b); show 1 ≤ _; omega
  | num n => have := stringify_len_pos (.num n); show 1 ≤ _; omega
  | str s => have := stringify_len_pos (.str s); show 1 ≤ _; omega

theorem pmArr_le (xs : List JVal) :
    pmArr xs ≤ 2 * (stringifyArr xs).length + 2 := by
  cases xs with
  | nil => show 1 ≤ _; omega
  | cons x xs =>
      cases xs with
      | nil =>
          have h := pm_le x
          show pm x + 1 + 1 ≤ 2 * (stringifyChars x ++ []).length + 2
          simp only [List.append_nil]
          omega
      | cons y ys =>
          have h1 := pm_le x
          have h2 := pmArr_le (y :: ys)
          show pm x + pmArr (y :: ys) + 1
            ≤ 2 * (stringifyChars x ++ ',' :: stringifyArr (y :: ys)).length + 2
          simp only [List.length_append, List.length_cons]
          omega

theorem pmObj_le (l : List (String × JVal)) :
    pmObj l ≤ 2 * (stringifyObj l).length + 2 := by
  cases l with
  | nil => show 1 ≤ _; omega
  | cons p l =>
      cases p with
      | mk k v =>
          cases l with
          | nil =>
              have h := pm_le v
              show pm v + 1 + 1
                ≤ 2 * (escStr k ++ ':' :: stringifyChars v ++ []).length + 2
              simp only [List.append_nil, List.length_append, List.length_cons]
              omega
          | cons q l' =>
              have h1 := pm_le v
              have h2 := pmObj_le (q :: l')
              show pm v + pmObj (q :: l') + 1
                ≤ 2 * (escStr k ++ ':' :: stringifyChars v
                    ++ ',' :: stringifyObj (q :: l')).length + 2
              simp only [List.length_append, List.length_cons]
              omega

end

theorem pm_pos (v : JVal) : 1 ≤ pm v := by
  cases v with
  | arr xs => show 1 ≤ pmArr xs + 1; omega
  | obj l => show 1 ≤ pmObj l + 1; omega
  | null => exact Nat.le_refl 1
  | undef => exact Nat.le_refl 1
  | bool b => exact Nat.le_refl 1
  | num n => exact Nat.le_refl 1
  | str s => exact Nat.le_refl 1

theorem pmArr_pos (xs : List JVal) : 1 ≤ pmArr xs := by
  cases xs with
  | nil => exact Nat.le_refl 1
  | cons x xs => show 1 ≤ pm x + pmArr xs + 1; omega

theorem pmObj_pos (l : List (String × JVal)) : 1 ≤ pmObj l := by
  cases l with
  | nil => exact Nat.le_refl 1
  | cons p l => show 1 ≤ pm p.2 + pmObj l + 1; omega

theorem insertKV_append_of_not_any (l : List (String × JVal)) (k : String)
    (v : JVal) (h : l.any (fun q => q.1 = k) = false) :
    insertKV l k v = l ++ [(k, v)] := by
  induction l with
  | nil => rfl
  | cons p l ih =>
      simp only [List.any_cons, Bool.or_eq_false_iff,
        decide_eq_false_iff_not] at h
      simp [insertKV, h.1, ih h.2]

/-- Parsing inverts serialization: one statement per parser entry point,
proved together by induction on the fuel (every recursive call spends
one unit). -/
theorem parse_stringify : ∀ fuel : Nat,
    (∀ (v : JVal) (rest : List Char), goodJ v = true → pm v ≤ fuel →
      (∀ c cs, rest = c :: cs → c.isDigit = false) →
      parseVal fuel (stringifyChars v ++ rest) = some (v, rest))
    ∧ (∀ (xs : List JVal) (rest : List Char), xs ≠ [] → goodArr xs = true →
        pmArr xs ≤ fuel →
        parseArrItems fuel (stringifyArr xs ++ ']' :: rest) = some (xs, rest))
    ∧ (∀ (l acc : List (String × JVal)) (rest : List Char),
        l ≠ [] → goodFields l = true → noDupKeys l = true →
        (∀ p ∈ l, acc.any (fun q => q.1 = p.1) = false) → pmObj l ≤ fuel →
        parseObjItems fuel acc (stringifyObj l ++ '}' :: rest)
          = some (acc ++ l, rest)) := by
  intro fuel
  induction fuel with
  | zero =>
      refine ⟨?_, ?_, ?_⟩
      · intro v _ _ hpm _
        have := pm_pos v
        omega
      · intro xs _ _ _ hpm
        have := pmArr_pos xs
        omega
      · intro l _ _ _ _ _ hpm
        have := pmObj_pos l
        omega
  | succ fuel ih =>
      obtain ⟨ihV, ihA, ihO⟩ := ih
      refine ⟨?_, ?_, ?_⟩
      · -- parseVal
        intro v rest hgood hpm hrest
        cases v with
        | undef => simp [goodJ] at hgood
        | null =>
            rw [show stringifyChars JVal.null ++ rest
                = 'n' :: (['u', 'l', 'l'] ++ rest) from rfl]
            rw [parseVal_n, expectChars_self]
            rfl
        | bool b =>
            cases b with
            | true =>
                rw [show stringifyChars (JVal.bool true) ++ rest
                    = 't' :: (['r', 'u', 'e'] ++ rest) from rfl]
                rw [parseVal_t, expectChars_self]
                rfl
            | false =>
                rw [show stringifyChars (JVal.bool false) ++ rest
                    = 'f' :: (['a', 'l', 's', 'e'] ++ rest) from rfl]
                rw [parseVal_f, expectChars_self]
                rfl
        | str s =>
            rw [show stringifyChars (JVal.str s) ++ rest
                = '"' :: (escList s.data ++ '"' :: rest) by
              show (('"' :: escList s.data ++ ['"']) : List Char) ++ rest = _
              simp]
            rw [parseVal_quote, parseStr_escList]
            simp
        | num n =>
            by_cases hneg : n < 0
            · rw [show stringifyChars (JVal.num n) ++ rest
                  = '-' :: (natChars n.natAbs ++ rest) by
                show intChars n ++ rest = _
                simp [intChars, hneg]]
              rw [parseVal_dash, parseNum_natChars _ _ hrest]
              simp [abs_of_neg hneg]
            · cases hch : natChars n.toNat with
              | nil => exact absurd hch (natChars_ne_nil _)
              | cons c tl =>
                  obtain ⟨d, hd, hcd⟩ := natChars_form _ c
                    (by rw [hch]; exact List.mem_cons_self _ _)
                  subst hcd
                  rw [show stringifyChars (JVal.num n) ++ rest
                      = digitChar d :: (tl ++ rest) by
                    show intChars n ++ rest = _
                    simp [intChars, hneg, hch]]
                  rw [parseVal_digitChar fuel _ d hd]
                  rw [show digitChar d :: (tl ++ rest)
                      = natChars n.toNat ++ rest by rw [hch]; simp]
                  rw [parseNum_natChars _ _ hrest]
                  have hnn : ((n.toNat : Int)) = n := by omega
                  simp [hnn]
        | arr xs =>
            cases xs with
            | nil =>
                rw [show stringifyChars (JVal.arr []) ++ rest
                    = '[' :: (']' :: rest) from rfl]
                rw [parseVal_lbrack, skipWs_cons_of_not_ws (by decide)]
                rfl
            | cons x xs' =>
                have hpm' : pmArr (x :: xs') ≤ fuel := by
                  have : pm (JVal.arr (x :: xs')) = pmArr (x :: xs') + 1 := rfl
                  omega
                have hgood' : goodArr (x :: xs') = true := hgood
                rw [show stringifyChars (JVal.arr (x :: xs')) ++ rest
                    = '[' :: (stringifyArr (x :: xs') ++ ']' :: rest) by
                  show ('[' :: stringifyArr (x :: xs') ++ [']']) ++ rest = _
                  simp]
                rw [parseVal_lbrack]
                obtain ⟨c, ctl, heq, hws, hrb, hrc⟩ := stringifyChars_head x
                obtain ⟨s, hs⟩ : ∃ s, stringifyArr (x :: xs')
                    = stringifyChars x ++ s := by
                  cases xs' with
                  | nil => exact ⟨[], rfl⟩
                  | cons y ys => exact ⟨',' :: stringifyArr (y :: ys), rfl⟩
                have ht2 : stringifyArr (x :: xs') ++ ']' :: rest
                    = c :: (ctl ++ (s ++ ']' :: rest)) := by
                  rw [hs, heq]
                  simp
                rw [ht2, skipWs_cons_of_not_ws hws]
                split
                · rename_i rest2 hpat
                  injection hpat with h1 _
                  exact absurd h1 hrb
                · rw [← ht2, ihA (x :: xs') rest (by simp) hgood' hpm']
                  rfl
        | obj l =>
            cases l with
            | nil =>
                rw [show stringifyChars (JVal.obj []) ++ rest
                    = '{' :: ('}' :: rest) from rfl]
                rw [parseVal_lbrace, skipWs_cons_of_not_ws (by decide)]
                rfl
            | cons p l' =>
                obtain ⟨k, v⟩ := p
                have hpm' : pmObj ((k, v) :: l') ≤ fuel := by
                  have : pm (JVal.obj ((k, v) :: l'))
                      = pmObj ((k, v) :: l') + 1 := rfl
                  omega
                have hga : noDupKeys ((k, v) :: l') = true
                    ∧ goodFields ((k, v) :: l') = true := by
                  have h0 : goodJ (JVal.obj ((k, v) :: l'))
                      = (noDupKeys ((k, v) :: l')
                        && goodFields ((k, v) :: l')) := rfl
                  rw [h0, Bool.and_eq_true] at hgood
                  exact hgood
                rw [show stringifyChars (JVal.obj ((k, v) :: l')) ++ rest
                    = '{' :: (stringifyObj ((k, v) :: l') ++ '}' :: rest) by
                  show ('{' :: stringifyObj ((k, v) :: l') ++ ['}'])
                      ++ rest = _
                  simp]
                rw [parseVal_lbrace]
                obtain ⟨s, hs⟩ : ∃ s, stringifyObj ((k, v) :: l')
                    = escStr k ++ ':' :: stringifyChars v ++ s := by
                  cases l' with
                  | nil => exact ⟨[], rfl⟩
                  | cons q l'' => exact ⟨',' :: stringifyObj (q :: l''), rfl⟩
                have ht2 : stringifyObj ((k, v) :: l') ++ '}' :: rest
                    = '"' :: ((escList k.data ++ ['"'])
                        ++ ':' :: stringifyChars v ++ s ++ '}' :: rest) := by
                  rw [hs]
                  show (('"' :: escList k.data ++ ['"'])
                    ++ ':' :: stringifyChars v ++ s) ++ '}' :: rest = _
                  simp
                rw [ht2, skipWs_cons_of_not_ws (by decide)]
                split
                · rename_i rest2 hpat
                  injection hpat with h1 _
                  exact absurd h1 (by decide)
                · rw [← ht2,
                    ihO ((k, v) :: l') [] rest (by simp) hga.2 hga.1
                      (by intro q _; rfl) hpm']
                  rfl
      · -- parseArrItems
        intro xs rest hne hgood hpm
        cases xs with
        | nil => exact absurd rfl hne
        | cons x xs' =>
            simp only [goodArr, Bool.and_eq_true] at hgood
            have hpmx : pm x ≤ fuel := by
              have h1 : pmArr (x :: xs') = pm x + pmArr xs' + 1 := rfl
              have := pmArr_pos xs'
              omega
            simp only [parseArrItems]
            cases xs' with
            | nil =>
                rw [show stringifyArr [x] ++ ']' :: rest
                    = stringifyChars x ++ (']' :: rest) by
                  show (stringifyChars x ++ []) ++ _ = _
                  simp]
                rw [ihV x (']' :: rest) hgood.1 hpmx
                  (by intro c cs h; injection h with h1 _; rw [← h1]; decide)]
                have hsw : skipWs (']' :: rest) = ']' :: rest :=
                  skipWs_cons_of_not_ws (by decide) _
                simp [hsw]
            | cons y ys =>
                have hpm' : pmArr (y :: ys) ≤ fuel := by
                  have h1 : pmArr (x :: y :: ys)
                      = pm x + pmArr (y :: ys) + 1 := rfl
                  have := pm_pos x
                  omega
                rw [show stringifyArr (x :: y :: ys) ++ ']' :: rest
                    = stringifyChars x
                      ++ (',' :: (stringifyArr (y :: ys) ++ ']' :: rest)) by
                  show (stringifyChars x ++ ',' :: stringifyArr (y :: ys))
                      ++ _ = _
                  simp]
                rw [ihV x _ hgood.1 hpmx
                  (by intro c cs h; injection h with h1 _; rw [← h1]; decide)]
                have hsw : skipWs
                      (',' :: (stringifyArr (y :: ys) ++ ']' :: rest))
                    = ',' :: (stringifyArr (y :: ys) ++ ']' :: rest) :=
                  skipWs_cons_of_not_ws (by decide) _
                simp only [hsw]
                rw [ihA (y :: ys) rest (by simp) hgood.2 hpm']
                rfl
      · -- parseObjItems
        intro l acc rest hne hgoodF hnd hfresh hpm
        cases l with
        | nil => exact absurd rfl hne
        | cons p l' =>
            obtain ⟨k, v⟩ := p
            simp only [goodFields, Bool.and_eq_true] at hgoodF
            simp only [noDupKeys, Bool.and_eq_true, Bool.not_eq_true',
              List.any_eq_false, decide_eq_false_iff_not,
              decide_eq_true_eq] at hnd
            have hpmv : pm v ≤ fuel := by
              have h0 : pmObj ((k, v) :: l') = pm v + pmObj l' + 1 := rfl
              have := pmObj_pos l'
              omega
            have hinsert : insertKV acc k v = acc ++ [(k, v)] :=
              insertKV_append_of_not_any _ _ _
                (hfresh (k, v) (List.mem_cons_self _ _))
            have hk : String.mk k.data = k := rfl
            simp only [parseObjItems]
            cases l' with
            | nil =>
                have h1 : skipWs ('"' :: (escList k.data
                      ++ '"' :: ':' :: (stringifyChars v ++ '}' :: rest)))
                    = '"' :: (escList k.data
                      ++ '"' :: ':' :: (stringifyChars v ++ '}' :: rest)) :=
                  skipWs_cons_of_not_ws (by decide) _
                have h2 := parseStr_escList k.data []
                  (':' :: (stringifyChars v ++ '}' :: rest))
                have h3 : skipWs (':' :: (stringifyChars v ++ '}' :: rest))
                    = ':' :: (stringifyChars v ++ '}' :: rest) :=
                  skipWs_cons_of_not_ws (by decide) _
                have h4 : parseVal fuel (stringifyChars v ++ '}' :: rest)
                    = some (v, '}' :: rest) :=
                  ihV v ('}' :: rest) hgoodF.1 hpmv
                    (by intro c cs h; injection h with he _
                        rw [← he]; decide)
                have h5 : skipWs ('}' :: rest) = '}' :: rest :=
                  skipWs_cons_of_not_ws (by decide) _
                rw [show stringifyObj [(k, v)] ++ '}' :: rest
                    = '"' :: (escList k.data
                      ++ '"' :: ':' :: (stringifyChars v ++ '}' :: rest)) by
                  show (('"' :: escList k.data ++ ['"'])
                    ++ ':' :: stringifyChars v ++ []) ++ '}' :: rest = _
                  simp]
                simp only [h1, h2, h3, h4, h5, List.reverse_nil,
                  List.nil_append, hk, hinsert]
            | cons q l'' =>
                have hpm2 : pmObj (q :: l'') ≤ fuel := by
                  have h0 : pmObj ((k, v) :: q :: l'')
                      = pm v + pmObj (q :: l'') + 1 := rfl
                  have := pm_pos v
                  omega
                have hfresh2 : ∀ r ∈ q :: l'',
                    (acc ++ [(k, v)]).any (fun s => s.1 = r.1) = false := by
                  intro r hr
                  rw [List.any_append]
                  have ha : acc.any (fun s => s.1 = r.1) = false :=
                    hfresh r (List.mem_cons_of_mem _ hr)
                  have hb : ([(k, v)].any (fun s => s.1 = r.1)) = false := by
                    simp only [List.any_cons, List.any_nil, Bool.or_false,
                      decide_eq_false_iff_not]
                    intro e
                    exact hnd.1 r hr e.symm
                  rw [ha, hb]
                  rfl
                have h1 : skipWs ('"' :: (escList k.data ++ '"' :: ':'
                      :: (stringifyChars v ++ ','
                        :: (stringifyObj (q :: l'') ++ '}' :: rest))))
                    = '"' :: (escList k.data ++ '"' :: ':'
                      :: (stringifyChars v ++ ','
                        :: (stringifyObj (q :: l'') ++ '}' :: rest))) :=
                  skipWs_cons_of_not_ws (by decide) _
                have h2 := parseStr_escList k.data []
                  (':' :: (stringifyChars v ++ ','
                    :: (stringifyObj (q :: l'') ++ '}' :: rest)))
                have h3 : skipWs (':' :: (stringifyChars v ++ ','
                      :: (stringifyObj (q :: l'') ++ '}' :: rest)))
                    = ':' :: (stringifyChars v ++ ','
                      :: (stringifyObj (q :: l'') ++ '}' :: rest)) :=
                  skipWs_cons_of_not_ws (by decide) _
                have h4 : parseVal fuel (stringifyChars v ++ ','
                      :: (stringifyObj (q :: l'') ++ '}' :: rest))
                    = some (v, ','
                      :: (stringifyObj (q :: l'') ++ '}' :: rest)) :=
                  ihV v _ hgoodF.1 hpmv
                    (by intro c cs h; injection h with he _
                        rw [← he]; decide)
                have h5 : skipWs (','
                      :: (stringifyObj (q :: l'') ++ '}' :: rest))
                    = ',' :: (stringifyObj (q :: l'') ++ '}' :: rest) :=
                  skipWs_cons_of_not_ws (by decide) _
                have h6 : parseObjItems fuel (acc ++ [(k, v)])
                      (stringifyObj (q :: l'') ++ '}' :: rest)
                    = some ((acc ++ [(k, v)]) ++ q :: l'', rest) :=
                  ihO (q :: l'') (acc ++ [(k, v)]) rest (by simp)
                    hgoodF.2 hnd.2 hfresh2 hpm2
                rw [show stringifyObj ((k, v) :: q :: l'') ++ '}' :: rest
                    = '"' :: (escList k.data ++ '"' :: ':'
                      :: (stringifyChars v ++ ','
                        :: (stringifyObj (q :: l'') ++ '}' :: rest))) by
                  show (('"' :: escList k.data ++ ['"'])
                    ++ ':' :: stringifyChars v
                      ++ ',' :: stringifyObj (q :: l'')) ++ '}' :: rest = _
                  simp]
                simp only [h1, h2, h3, h4, h5, List.reverse_nil,
                  List.nil_append, hk, hinsert, h6]
                simp

/-! ## The streaming payload transform against the response extractor -/

/-- The per-line payload pipeline performs exactly the unwrap and
candidate sanitization of `extractGeminiResponse`. -/
theorem transformPayload_eq_extract (v : JVal) :
    transformPayload v = extractGeminiResponse v := by
  have hg : (if truthy (jget v "response") then jget v "response" else v)
      = (if truthy v && truthy (jget v "response")
         then jget v "response" else v) := by
    by_cases hv : truthy v
    · simp [hv]
    · simp only [Bool.not_eq_true] at hv
      rw [jget_of_falsy hv]
      simp [truthy, hv]
  simp only [transformPayload, extractGeminiResponse]
  rw [hg]
  generalize (if truthy v && truthy (jget v "response")
      then jget v "response" else v) = r
  by_cases hr : truthy r
  · simp only [hr, Bool.not_true, Bool.false_eq_true, ite_false]
    cases hc : jget r "candidates" with
    | arr cs => simp [truthy]
    | null => simp [truthy]
    | undef => simp [truthy]
    | bool b => cases b <;> simp [truthy]
    | num n => split <;> rfl
    | str s => split <;> rfl
    | obj l => simp [truthy]
  · simp only [Bool.not_eq_true] at hr
    rw [jget_of_falsy hr]
    simp [hr, truthy]

/-! ## Roundtrip at the string level, and well-formedness preservation -/

/-- `JSON.parse ∘ JSON.stringify` is the identity on parse-shaped values. -/
theorem jsonParse_stringify (v : JVal) (hv : goodJ v = true) :
    jsonParse (jsonStringify v) = some v := by
  have hl : (jsonStringify v).length = (stringifyChars v).length := rfl
  have hfuel : pm v ≤ 2 * (jsonStringify v).length + 2 := by
    have := pm_le v
    omega
  have hmain := (parse_stringify (2 * (jsonStringify v).length + 2)).1 v []
    hv hfuel (by intro c cs h; cases h)
  rw [List.append_nil] at hmain
  have hdata : (jsonStringify v).data = stringifyChars v := rfl
  simp only [jsonParse, hdata, hmain, skipWs]

theorem goodJ_obj (l : List (String × JVal)) :
    goodJ (JVal.obj l) = (noDupKeys l && goodFields l) := rfl

theorem goodJ_arr (xs : List JVal) : goodJ (JVal.arr xs) = goodArr xs := rfl

theorem noDupKeys_insertKV (l : List (String × JVal)) (k : String) (v : JVal)
    (h : noDupKeys l = true) : noDupKeys (insertKV l k v) = true := by
  induction l with
  | nil => rfl
  | cons p l ih =>
      obtain ⟨k1, v1⟩ := p
      simp only [noDupKeys, Bool.and_eq_true, Bool.not_eq_true'] at h
      by_cases hk : k1 = k
      · subst hk
        simp only [insertKV, if_pos rfl]
        simp only [noDupKeys, Bool.and_eq_true, Bool.not_eq_true']
        exact ⟨h.1, h.2⟩
      · simp only [insertKV, if_neg hk]
        simp only [noDupKeys, Bool.and_eq_true, Bool.not_eq_true']
        refine ⟨?_, ih h.2⟩
        rw [any_key_insertKV]
        simp only [h.1, Bool.false_or, decide_eq_false_iff_not]
        exact fun e => hk e.symm

theorem goodFields_insertKV (l : List (String × JVal)) (k : String) (v : JVal)
    (hl : goodFields l = true) (hv : goodJ v = true) :
    goodFields (insertKV l k v) = true := by
  induction l with
  | nil => simp [insertKV, goodFields, hv]
  | cons p l ih =>
      simp only [goodFields, Bool.and_eq_true] at hl
      by_cases hk : p.1 = k
      · simp only [insertKV, if_pos hk]
        simp only [goodFields, Bool.and_eq_true]
        exact ⟨hv, hl.2⟩
      · simp only [insertKV, if_neg hk]
        simp only [goodFields, Bool.and_eq_true]
        exact ⟨hl.1, ih hl.2⟩

theorem arrFields_key (xs : List JVal) : ∀ (i : Nat) (p : String × JVal),
    p ∈ arrFields i xs → ∃ j, i ≤ j ∧ p.1 = String.mk (natChars j) := by
  induction xs with
  | nil => intro i p hp; cases hp
  | cons x xs ih =>
      intro i p hp
      cases hp with
      | head => exact ⟨i, Nat.le_refl i, rfl⟩
      | tail _ hp =>
          obtain ⟨j, hj, he⟩ := ih (i + 1) p hp
          exact ⟨j, by omega, he⟩

theorem noDupKeys_arrFields (xs : List JVal) : ∀ i : Nat,
    noDupKeys (arrFields i xs) = true := by
  induction xs with
  | nil => intro i; rfl
  | cons x xs ih =>
      intro i
      simp only [arrFields, noDupKeys, Bool.and_eq_true, Bool.not_eq_true']
      refine ⟨?_, ih (i + 1)⟩
      rw [List.any_eq_false]
      intro p hp
      obtain ⟨j, hj, he⟩ := arrFields_key xs (i + 1) p hp
      simp only [decide_eq_true_eq]
      intro e
      rw [he] at e
      injection e with e'
      have := natChars_injective e'
      omega

theorem goodFields_arrFields (xs : List JVal) (h : goodArr xs = true) :
    ∀ i : Nat, goodFields (arrFields i xs) = true := by
  induction xs with
  | nil => intro i; rfl
  | cons x xs ih =>
      simp only [goodArr, Bool.and_eq_true] at h
      intro i
      simp only [arrFields, goodFields, Bool.and_eq_true]
      exact ⟨h.1, ih h.2 (i + 1)⟩

theorem spreadCopy_good (v : JVal) (h : goodJ v = true) :
    noDupKeys (spreadCopy v) = true ∧ goodFields (spreadCopy v) = true := by
  cases v with
  | obj l =>
      rw [goodJ_obj, Bool.and_eq_true] at h
      exact h
  | arr xs =>
      have h' : goodArr xs = true := h
      exact ⟨noDupKeys_arrFields xs 0, goodFields_arrFields xs h' 0⟩
  | null => exact ⟨rfl, rfl⟩
  | undef => exact ⟨rfl, rfl⟩
  | bool b => exact ⟨rfl, rfl⟩
  | num n => exact ⟨rfl, rfl⟩
  | str s => exact ⟨rfl, rfl⟩

theorem noDupKeys_filter (l : List (String × JVal))
    (f : String × JVal → Bool) (h : noDupKeys l = true) :
    noDupKeys (l.filter f) = true := by
  induction l with
  | nil => rfl
  | cons q l ih =>
      simp only [noDupKeys, Bool.and_eq_true, Bool.not_eq_true'] at h
      rw [List.filter_cons]
      by_cases hq : f q = true
      · simp only [hq, if_true]
        simp only [noDupKeys, Bool.and_eq_true, Bool.not_eq_true']
        refine ⟨?_, ih h.2⟩
        rw [List.any_eq_false]
        intro r hr
        have hrl : r ∈ l := List.mem_of_mem_filter hr
        have h1 := List.any_eq_false.mp h.1 r hrl
        exact h1
      · simp only [hq, if_false]
        exact ih h.2

theorem goodFields_filter (l : List (String × JVal))
    (f : String × JVal → Bool) (h : goodFields l = true) :
    goodFields (l.filter f) = true := by
  induction l with
  | nil => rfl
  | cons q l ih =>
      simp only [goodFields, Bool.and_eq_true] at h
      rw [List.filter_cons]
      by_cases hq : f q = true
      · simp only [hq, if_true]
        simp only [goodFields, Bool.and_eq_true]
        exact ⟨h.1, ih h.2⟩
      · simp only [hq, if_false]
        exact ih h.2

theorem goodFields_getKey (l : List (String × JVal)) (k : String)
    (h : goodFields l = true) :
    getKey l k = JVal.undef ∨ goodJ (getKey l k) = true := by
  induction l with
  | nil => exact Or.inl rfl
  | cons q l ih =>
      simp only [goodFields, Bool.and_eq_true] at h
      obtain ⟨k1, v1⟩ := q
      by_cases hk : k1 = k
      · right
        simp only [getKey, if_pos hk]
        exact h.1
      · simp only [getKey, if_neg hk]
        exact ih h.2

theorem goodJ_jget (v : JVal) (k : String) (h : goodJ v = true) :
    jget v k = JVal.undef ∨ goodJ (jget v k) = true := by
  cases v with
  | obj l =>
      rw [goodJ_obj, Bool.and_eq_true] at h
      exact goodFields_getKey l k h.2
  | null => exact Or.inl rfl
  | undef => exact Or.inl rfl
  | bool b => exact Or.inl rfl
  | num n => exact Or.inl rfl
  | str s => exact Or.inl rfl
  | arr xs => exact Or.inl rfl

theorem goodJ_jget_of_truthy (v : JVal) (k : String) (hv : goodJ v = true)
    (ht : truthy (jget v k) = true) : goodJ (jget v k) = true := by
  cases goodJ_jget v k hv with
  | inl he => rw [he] at ht; simp [truthy] at ht
  | inr hg => exact hg

/-- Every value the parser produces is parse-shaped: no `undefined`
anywhere and duplicate-free object keys throughout. -/
theorem parse_good : ∀ fuel : Nat,
    (∀ (cs : List Char) (v : JVal) (rest : List Char),
      parseVal fuel cs = some (v, rest) → goodJ v = true)
    ∧ (∀ (cs : List Char) (xs : List JVal) (rest : List Char),
      parseArrItems fuel cs = some (xs, rest) → goodArr xs = true)
    ∧ (∀ (acc : List (String × JVal)) (cs : List Char)
        (l : List (String × JVal)) (rest : List Char),
      parseObjItems fuel acc cs = some (l, rest) →
      noDupKeys acc = true → goodFields acc = true →
      noDupKeys l = true ∧ goodFields l = true) := by
  intro fuel
  induction fuel with
  | zero =>
      refine ⟨?_, ?_, ?_⟩
      · intro cs v rest h; simp [parseVal] at h
      · intro cs xs rest h; simp [parseArrItems] at h
      · intro acc cs l rest h _ _; simp [parseObjItems] at h
  | succ fuel ih =>
      obtain ⟨ihV, ihA, ihO⟩ := ih
      refine ⟨?_, ?_, ?_⟩
      · intro cs v rest h
        simp only [parseVal] at h
        split at h
        · exact Option.noConfusion h
        · rename_i c rest0 hsk
          split_ifs at h
          · rcases Option.map_eq_some'.mp h with ⟨r, _, hr⟩
            injection hr with hv _
            subst hv
            rfl
          · rcases Option.map_eq_some'.mp h with ⟨r, _, hr⟩
            injection hr with hv _
            subst hv
            rfl
          · rcases Option.map_eq_some'.mp h with ⟨r, _, hr⟩
            injection hr with hv _
            subst hv
            rfl
          · rcases Option.map_eq_some'.mp h with ⟨p, _, hr⟩
            injection hr with hv _
            subst hv
            rfl
          · split at h
            · injection h with h'
              injection h' with hv _
              subst hv
              rfl
            · rcases Option.map_eq_some'.mp h with ⟨p, hp, hr⟩
              injection hr with hv _
              subst hv
              rw [goodJ_arr]
              exact ihA rest0 p.1 p.2 (by rw [hp])
          · split at h
            · injection h with h'
              injection h' with hv _
              subst hv
              rfl
            · rcases Option.map_eq_some'.mp h with ⟨p, hp, hr⟩
              injection hr with hv _
              subst hv
              rw [goodJ_obj, Bool.and_eq_true]
              exact ihO [] rest0 p.1 p.2 (by rw [hp]) rfl rfl
          · rcases Option.map_eq_some'.mp h with ⟨p, _, hr⟩
            injection hr with hv _
            subst hv
            rfl
          · rcases Option.map_eq_some'.mp h with ⟨p, _, hr⟩
            injection hr with hv _
            subst hv
            rfl
      · intro cs xs rest h
        simp only [parseArrItems] at h
        split at h
        · rename_i v0 rest0 hpv
          split at h
          · rename_i rest2 hsk
            rcases Option.map_eq_some'.mp h with ⟨p, hp, he⟩
            injection he with hx _
            subst hx
            simp only [goodArr, Bool.and_eq_true]
            exact ⟨ihV cs v0 rest0 hpv, ihA rest2 p.1 p.2 (by rw [hp])⟩
          · rename_i rest2 hsk
            injection h with h'
            injection h' with hx _
            subst hx
            simp only [goodArr, Bool.and_eq_true]
            exact ⟨ihV cs v0 rest0 hpv, trivial⟩
          · exact Option.noConfusion h
        · exact Option.noConfusion h
      · intro acc cs l rest h hnd hgf
        simp only [parseObjItems] at h
        split at h
        · rename_i rest1 hsw
          split at h
          · rename_i k rest2 hps
            split at h
            · rename_i rest3 hsw2
              split at h
              · rename_i v0 rest4 hpv
                have hv0 : goodJ v0 = true := ihV rest3 v0 rest4 hpv
                split at h
                · rename_i rest5 hsw3
                  exact ihO (insertKV acc k v0) rest5 l rest h
                    (noDupKeys_insertKV acc k v0 hnd)
                    (goodFields_insertKV acc k v0 hgf hv0)
                · rename_i rest5 hsw3
                  injection h with h'
                  injection h' with hl _
                  rw [← hl]
                  exact ⟨noDupKeys_insertKV acc k v0 hnd,
                    goodFields_insertKV acc k v0 hgf hv0⟩
                · exact Option.noConfusion h
              · exact Option.noConfusion h
            · exact Option.noConfusion h
          · exact Option.noConfusion h
        · exact Option.noConfusion h

/-- `JSON.parse` only returns parse-shaped values. -/
theorem jsonParse_good (s : String) (v : JVal) (h : jsonParse s = some v) :
    goodJ v = true := by
  simp only [jsonParse] at h
  split at h
  · rename_i v0 rest0 hpv
    split at h
    · injection h with h'
      subst h'
      exact (parse_good _).1 _ _ _ hpv
    · exact Option.noConfusion h
  · exact Option.noConfusion h

theorem nullish_of_truthy {v : JVal} (h : truthy v = true) :
    nullish v = false := by
  cases v with
  | null => simp [truthy] at h
  | undef => simp [truthy] at h
  | bool b => rfl
  | num n => rfl
  | str s => rfl
  | arr xs => rfl
  | obj l => rfl

theorem goodJ_sanitizePart (p : JVal) (h : goodJ p = true) :
    goodJ (sanitizePart p) = true := by
  unfold sanitizePart
  split
  · exact h
  · rw [goodJ_obj, Bool.and_eq_true]
    have hs := spreadCopy_good p h
    exact ⟨noDupKeys_filter _ _ hs.1, goodFields_filter _ _ hs.2⟩

theorem goodArr_map_sanitizePart (parts : List JVal)
    (h : goodArr parts = true) :
    goodArr (parts.map sanitizePart) = true := by
  induction parts with
  | nil => rfl
  | cons x xs ih =>
      simp only [goodArr, Bool.and_eq_true] at h
      simp only [List.map_cons, goodArr, Bool.and_eq_true]
      exact ⟨goodJ_sanitizePart x h.1, ih h.2⟩

theorem indexStep_good (l : List (String × JVal)) (i : Int)
    (hnd : noDupKeys l = true) (hgf : goodFields l = true) :
    noDupKeys (indexStep l i) = true ∧ goodFields (indexStep l i) = true := by
  unfold indexStep
  split
  · exact ⟨noDupKeys_insertKV l "index" (JVal.num i) hnd,
      goodFields_insertKV l "index" (JVal.num i) hgf rfl⟩
  · exact ⟨hnd, hgf⟩

theorem contentStep_good (l : List (String × JVal))
    (hnd : noDupKeys l = true) (hgf : goodFields l = true) :
    noDupKeys (contentStep l) = true ∧ goodFields (contentStep l) = true := by
  simp only [contentStep]
  split
  · rename_i ht
    split
    · rename_i parts heq
      have hcon : goodJ (getKey l "content") = true := by
        rcases goodFields_getKey l "content" hgf with he | hg
        · rw [he] at ht; simp [truthy] at ht
        · exact hg
      cases hgc : getKey l "content" with
      | obj lc =>
          rw [hgc] at heq hcon
          rw [goodJ_obj, Bool.and_eq_true] at hcon
          have hparts : goodArr parts = true := by
            rw [show jget (JVal.obj lc) "parts" = getKey lc "parts" from rfl]
              at heq
            rcases goodFields_getKey lc "parts" hcon.2 with he | hg
            · rw [he] at heq
              exact JVal.noConfusion heq
            · rw [heq] at hg
              rw [goodJ_arr] at hg
              exact hg
          refine ⟨noDupKeys_insertKV _ _ _ hnd,
            goodFields_insertKV _ _ _ hgf ?_⟩
          rw [goodJ_obj, Bool.and_eq_true]
          refine ⟨noDupKeys_insertKV _ _ _ hcon.1,
            goodFields_insertKV _ _ _ hcon.2 ?_⟩
          rw [goodJ_arr]
          exact goodArr_map_sanitizePart parts hparts
      | null => rw [hgc] at heq; simp [jget] at heq
      | undef => rw [hgc] at heq; simp [jget] at heq
      | bool b => rw [hgc] at heq; simp [jget] at heq
      | num n => rw [hgc] at heq; simp [jget] at heq
      | str s => rw [hgc] at heq; simp [jget] at heq
      | arr xs => rw [hgc] at heq; simp [jget] at heq
    · exact ⟨hnd, hgf⟩
  · exact ⟨hnd, hgf⟩

theorem goodJ_sanitizeCandidate (c : JVal) (i : Int) (h : goodJ c = true) :
    goodJ (sanitizeCandidate c i) = true := by
  unfold sanitizeCandidate
  split
  · exact h
  · unfold sanitizeFields
    rw [goodJ_obj, Bool.and_eq_true]
    have hs := spreadCopy_good c h
    have hidx := indexStep_good (spreadCopy c) i hs.1 hs.2
    exact contentStep_good (indexStep (spreadCopy c) i) hidx.1 hidx.2

theorem goodArr_sanitizeAll (cs : List JVal) : ∀ i : Int,
    goodArr cs = true → goodArr (sanitizeAll i cs) = true := by
  induction cs with
  | nil => intro i _; rfl
  | cons c cs ih =>
      intro i h
      simp only [goodArr, Bool.and_eq_true] at h
      simp only [sanitizeAll, goodArr, Bool.and_eq_true]
      exact ⟨goodJ_sanitizeCandidate c i h.1, ih (i + 1) h.2⟩

theorem goodJ_payload_aux (g : JVal) (h : goodJ g = true) :
    goodJ (if truthy (jget g "candidates") then
      match jget g "candidates" with
      | JVal.arr cs =>
          JVal.obj (insertKV (spreadCopy g) "candidates"
            (JVal.arr (sanitizeAll 0 cs)))
      | _ => g
    else g) = true := by
  split
  · split
    · rename_i cs heq
      rw [goodJ_obj, Bool.and_eq_true]
      have hs := spreadCopy_good g h
      refine ⟨noDupKeys_insertKV _ _ _ hs.1,
        goodFields_insertKV _ _ _ hs.2 ?_⟩
      rw [goodJ_arr]
      apply goodArr_sanitizeAll
      rcases goodJ_jget g "candidates" h with he | hg
      · rw [he] at heq
        exact JVal.noConfusion heq
      · rw [heq] at hg
        rw [goodJ_arr] at hg
        exact hg
    · exact h
  · exact h

/-- The per-line payload transform only produces parse-shaped values from
parse-shaped input. -/
theorem goodJ_transformPayload (v : JVal) (h : goodJ v = true) :
    goodJ (transformPayload v) = true := by
  have hgd : goodJ (if truthy (jget v "response")
      then jget v "response" else v) = true := by
    split
    · rename_i ht
      exact goodJ_jget_of_truthy v "response" h ht
    · exact h
  exact goodJ_payload_aux _ hgd

theorem nullish_payload_aux (g : JVal) (h : nullish g = false) :
    nullish (if truthy (jget g "candidates") then
      match jget g "candidates" with
      | JVal.arr cs =>
          JVal.obj (insertKV (spreadCopy g) "candidates"
            (JVal.arr (sanitizeAll 0 cs)))
      | _ => g
    else g) = false := by
  split
  · split
    · rfl
    · exact h
  · exact h

theorem nullish_transformPayload (v : JVal) (h : nullish v = false) :
    nullish (transformPayload v) = false := by
  have hgd : nullish (if truthy (jget v "response")
      then jget v "response" else v) = false := by
    split
    · rename_i ht
      exact nullish_of_truthy ht
    · exact h
  exact nullish_payload_aux _ hgd

theorem sanitizeAll_idem (cs : List JVal) : ∀ i : Int,
    sanitizeAll i (sanitizeAll i cs) = sanitizeAll i cs := by
  induction cs with
  | nil => intro i; rfl
  | cons c cs ih =>
      intro i
      simp only [sanitizeAll]
      rw [sanitizeCandidate_idem, ih (i + 1)]

/-- When the input has no truthy `response` field the envelope unwrap is a
no-op and `transformPayload` is just the candidates rebuild. -/
theorem payloadBody_of_not_truthy (w : JVal)
    (h : truthy (jget w "response") = false) :
    transformPayload w
      = (if truthy (jget w "candidates") then
          match jget w "candidates" with
          | JVal.arr cs =>
              JVal.obj (insertKV (spreadCopy w) "candidates"
                (JVal.arr (sanitizeAll 0 cs)))
          | _ => w
        else w) := by
  simp only [transformPayload, h, Bool.false_eq_true, if_false]

theorem payload_fix_aux (g : JVal)
    (hresp : truthy (jget (if truthy (jget g "candidates") then
        match jget g "candidates" with
        | JVal.arr cs =>
            JVal.obj (insertKV (spreadCopy g) "candidates"
              (JVal.arr (sanitizeAll 0 cs)))
        | _ => g
      else g) "response") = false) :
    transformPayload (if truthy (jget g "candidates") then
        match jget g "candidates" with
        | JVal.arr cs =>
            JVal.obj (insertKV (spreadCopy g) "candidates"
              (JVal.arr (sanitizeAll 0 cs)))
        | _ => g
      else g)
    = (if truthy (jget g "candidates") then
        match jget g "candidates" with
        | JVal.arr cs =>
            JVal.obj (insertKV (spreadCopy g) "candidates"
              (JVal.arr (sanitizeAll 0 cs)))
        | _ => g
      else g) := by
  by_cases hc : truthy (jget g "candidates") = true
  · cases hcc : jget g "candidates" with
    | arr cs =>
        rw [hcc] at hresp hc
        rw [if_pos hc] at hresp ⊢
        have hresp2 : truthy (jget (JVal.obj (insertKV (spreadCopy g)
            "candidates" (JVal.arr (sanitizeAll 0 cs)))) "response")
            = false := hresp
        show transformPayload (JVal.obj (insertKV (spreadCopy g)
            "candidates" (JVal.arr (sanitizeAll 0 cs))))
          = JVal.obj (insertKV (spreadCopy g) "candidates"
            (JVal.arr (sanitizeAll 0 cs)))
        rw [payloadBody_of_not_truthy _ hresp2]
        have hj : jget (JVal.obj (insertKV (spreadCopy g) "candidates"
              (JVal.arr (sanitizeAll 0 cs)))) "candidates"
            = JVal.arr (sanitizeAll 0 cs) := getKey_insertKV_self _ _ _
        rw [hj]
        rw [if_pos (show truthy (JVal.arr (sanitizeAll 0 cs)) = true
          from rfl)]
        show JVal.obj (insertKV (spreadCopy (JVal.obj (insertKV
            (spreadCopy g) "candidates" (JVal.arr (sanitizeAll 0 cs)))))
            "candidates" (JVal.arr (sanitizeAll 0 (sanitizeAll 0 cs))))
          = JVal.obj (insertKV (spreadCopy g) "candidates"
            (JVal.arr (sanitizeAll 0 cs)))
        rw [show spreadCopy (JVal.obj (insertKV (spreadCopy g)
            "candidates" (JVal.arr (sanitizeAll 0 cs))))
          = insertKV (spreadCopy g) "candidates"
            (JVal.arr (sanitizeAll 0 cs)) from rfl]
        rw [sanitizeAll_idem]
        rw [insertKV_insertKV_self]
    | null =>
        rw [hcc] at hresp hc
        rw [if_pos hc] at hresp ⊢
        have hresp2 : truthy (jget g "response") = false := hresp
        show transformPayload g = g
        rw [payloadBody_of_not_truthy _ hresp2, hcc, if_pos hc]
    | undef =>
        rw [hcc] at hresp hc
        rw [if_pos hc] at hresp ⊢
        have hresp2 : truthy (jget g "response") = false := hresp
        show transformPayload g = g
        rw [payloadBody_of_not_truthy _ hresp2, hcc, if_pos hc]
    | bool b =>
        rw [hcc] at hresp hc
        rw [if_pos hc] at hresp ⊢
        have hresp2 : truthy (jget g "response") = false := hresp
        show transformPayload g = g
        rw [payloadBody_of_not_truthy _ hresp2, hcc, if_pos hc]
    | num n =>
        rw [hcc] at hresp hc
        rw [if_pos hc] at hresp ⊢
        have hresp2 : truthy (jget g "response") = false := hresp
        show transformPayload g = g
        rw [payloadBody_of_not_truthy _ hresp2, hcc, if_pos hc]
    | str s =>
        rw [hcc] at hresp hc
        rw [if_pos hc] at hresp ⊢
        have hresp2 : truthy (jget g "response") = false := hresp
        show transformPayload g = g
        rw [payloadBody_of_not_truthy _ hresp2, hcc, if_pos hc]
    | obj lg =>
        rw [hcc] at hresp hc
        rw [if_pos hc] at hresp ⊢
        have hresp2 : truthy (jget g "response") = false := hresp
        show transformPayload g = g
        rw [payloadBody_of_not_truthy _ hresp2, hcc, if_pos hc]
  · rw [if_neg hc] at hresp ⊢
    rw [payloadBody_of_not_truthy _ hresp, if_neg hc]

/-- Re-running `transformPayload` on its own output is a no-op whenever that
output carries no truthy `response` field. -/
theorem transformPayload_fixpoint (v : JVal)
    (h : truthy (jget (transformPayload v) "response") = false) :
    transformPayload (transformPayload v) = transformPayload v :=
  payload_fix_aux (if truthy (jget v "response")
    then jget v "response" else v) h

theorem startsWithData_data (s : String) :
    startsWithData ("data: " ++ s) = true := by
  unfold startsWithData
  rw [String.data_append,
    show (6 : Nat) = ("data: ".data).length from rfl,
    List.take_left]
  simp

theorem dropData_data (s : String) :
    dropData ("data: " ++ s) = s := by
  unfold dropData
  rw [String.data_append,
    show (6 : Nat) = ("data: ".data).length from rfl,
    List.drop_left]

/-! ## Claim theorems -/

/-- **C1**: for every candidate value `c` and integer `i`,
`sanitizeCandidate c i` returns `c` unchanged when `c` is `null` or not an
object, and otherwise a shallow copy of `c` whose `index` equals `c`'s own
`index` when defined and `i` otherwise, with `content.parts` (when an
array) replaced by the same-length, same-order array of parts each with
only the `thoughtSignature` key removed and all other fields verbatim,
`content`'s other fields untouched and `content` unchanged when `parts` is
absent or not an array — `sanitizeCandidateClaimSpec` states exactly this
recipe.  In particular, on `{content: {parts: [{text: "a",
thoughtSignature: "x"}]}}` at position 2 it yields `{index: 2, content:
{parts: [{text: "a"}]}}` (JSON object key order is not significant; the
embedding records the adapter's insertion order, `index` appended after the
copied `content`). -/
theorem claim_C1_sanitizeCandidate :
    (∀ (c : JVal) (i : Int),
      sanitizeCandidate c i = sanitizeCandidateClaimSpec c i)
    ∧ sanitizeCandidate
        (.obj [("content", .obj [("parts",
          .arr [.obj [("text", .str "a"), ("thoughtSignature", .str "x")]])])]) 2
      = .obj [("content", .obj [("parts", .arr [.obj [("text", .str "a")]])]),
              ("index", .num 2)] :=
  ⟨sanitizeCandidate_eq_claimSpec, rfl⟩

/-- **C2 (counterexample)**: the claim unwraps by key presence, but the
code unwraps by truthiness.  On `{response: null}` the claim's recipe
(`extractResponseClaimSpec`) yields `null` while `extractGeminiResponse`
returns the input unchanged — and the two results differ. -/
theorem claim_C2_counterexample :
    extractGeminiResponse (.obj [("response", .null)])
        = .obj [("response", .null)]
    ∧ extractResponseClaimSpec (.obj [("response", .null)]) = .null
    ∧ extractGeminiResponse (.obj [("response", .null)])
        ≠ extractResponseClaimSpec (.obj [("response", .null)]) :=
  ⟨rfl, rfl, fun h => JVal.noConfusion h⟩

/-- **C2 (amended)**: `extractGeminiResponse` unwraps by truthiness — the
payload is `r.response` when `r` and `r.response` are truthy, else `r`
itself; a payload without a `candidates` array is returned unchanged, and
otherwise the result is a shallow copy with `candidates` replaced by the
same-length, original-order array of `sanitizeCandidate(candidate,
0-based original position)` (`extractResponseAmendedSpec`). -/
theorem claim_C2_extractGeminiResponse (r : JVal) :
    extractGeminiResponse r = extractResponseAmendedSpec r :=
  extractGeminiResponse_eq_amendedSpec r

/-- **C3 (counterexample)**: `"data:  null"` (two spaces) strips to
`" null"`, which parses as JSON `null` — yet the line is returned
unchanged, because `data.response` throws a `TypeError` on the `null`
payload inside the `try` block.  The claim says a parsed payload is always
re-serialized (which would give `"data: null"`), so its "unchanged in
exactly two cases" accounting is off by this third case. -/
theorem claim_C3_counterexample :
    jsonParse (dropData "data:  null") = some JVal.null
    ∧ transformStreamLine "data:  null" = "data:  null"
    ∧ transformStreamLineClaimSpec "data:  null" = "data: null"
    ∧ transformStreamLine "data:  null"
        ≠ transformStreamLineClaimSpec "data:  null" :=
  ⟨rfl, rfl, rfl, by decide⟩

/-- **C3 (amended)**: `transformStreamLine` never raises and returns the
input unchanged exactly when the line lacks the `"data: "` prefix, when the
remainder fails to parse as JSON (e.g. `"data: {not json"` or a `[DONE]`
sentinel), or when the parsed payload is `null` (dereferencing it throws
inside the `try`, and the catch returns the line); for every other parsed
payload the result is `"data: "` followed by the JSON serialization of the
payload after the same envelope unwrap and candidate sanitization as
`extractGeminiResponse`. -/
theorem claim_C3_transformStreamLine (line : String) :
    transformStreamLine line =
      (if startsWithData line then
         match jsonParse (dropData line) with
         | some v =>
             if nullish v then line
             else "data: " ++ jsonStringify (extractGeminiResponse v)
         | none => line
       else line) := by
  unfold transformStreamLine
  by_cases h : startsWithData line
  · simp only [h, ite_true]
    cases hp : jsonParse (dropData line) with
    | some v =>
        by_cases hn : nullish v
        · simp [hn]
        · simp only [hn, Bool.false_eq_true, ite_false]
          rw [transformPayload_eq_extract]
    | none => rfl
  · simp [h]

/-- **C4**: in the merged `generationConfig` of a converted request each of
the five named keys resolves independently: a value supplied in the
incoming `generationConfig` (an object with duplicate-free keys, as JSON
guarantees) takes precedence, and an absent key receives the configured
default (`cfgDefault`), except `candidateCount` whose fallback is the
literal 1.  With an empty incoming config every key is at its
default/fallback; with a partial config exactly the supplied keys differ. -/
theorem claim_C4_mergedGenerationConfig (cfg : Config) (reqId model : JVal)
    (grl tokl gcl : List (String × JVal))
    (hnd : (gcl.map Prod.fst).Nodup)
    (hgc : getKey grl "generationConfig" = .obj gcl) :
    ∀ k ∈ namedConfigKeys,
      jget (jget (jget ((convertGeminiToAntigravity cfg reqId model
          (.obj grl) (.obj tokl)).getD .null) "request") "generationConfig") k
        = (match gcl.lookup k with
           | some v => v
           | none => if k = "candidateCount" then JVal.num 1
                     else cfgDefault cfg k) := by
  intro k hk
  rw [convert_generationConfig_eq cfg reqId model grl tokl gcl hgc]
  exact merged_lookup cfg gcl hnd k hk

/-- Witness for C4 at a concrete partial config: only the supplied
`temperature` differs from the defaults. -/
theorem claim_C4_witness :
    jget (jget (jget ((convertGeminiToAntigravity
        ⟨.num 10, .num 20, .num 30, .num 40, .undef⟩ (.str "rid") (.str "m")
        (.obj [("generationConfig", .obj [("temperature", .num 7)])])
        (.obj [])).getD .null) "request") "generationConfig") "temperature"
      = .num 7 :=
  claim_C4_mergedGenerationConfig
    ⟨.num 10, .num 20, .num 30, .num 40, .undef⟩ (.str "rid") (.str "m")
    [("generationConfig", .obj [("temperature", .num 7)])] []
    [("temperature", .num 7)] (by decide) rfl "temperature" (by decide)

/-- **C10**: an explicit `null` for one of the five named keys survives
into the merged config — the trailing spread overwrites the
default-resolved value with the supplied `null`. -/
theorem claim_C10_null_override (cfg : Config) (reqId model : JVal)
    (grl tokl gcl : List (String × JVal))
    (hnd : (gcl.map Prod.fst).Nodup)
    (hgc : getKey grl "generationConfig" = .obj gcl)
    (k : String) (hk : k ∈ namedConfigKeys)
    (hnull : gcl.lookup k = some .null) :
    jget (jget (jget ((convertGeminiToAntigravity cfg reqId model
        (.obj grl) (.obj tokl)).getD .null) "request") "generationConfig") k
      = .null := by
  rw [convert_generationConfig_eq cfg reqId model grl tokl gcl hgc,
    merged_lookup cfg gcl hnd k hk, hnull]

/-- Witness for C10: `{topP: null}` yields a merged `topP` of `null`, not
the configured default. -/
theorem claim_C10_witness :
    jget (jget (jget ((convertGeminiToAntigravity
        ⟨.num 10, .num 20, .num 30, .num 40, .undef⟩ (.str "rid") (.str "m")
        (.obj [("generationConfig", .obj [("topP", .null)])])
        (.obj [])).getD .null) "request") "generationConfig") "topP"
      = .null :=
  claim_C10_null_override
    ⟨.num 10, .num 20, .num 30, .num 40, .undef⟩ (.str "rid") (.str "m")
    [("generationConfig", .obj [("topP", .null)])] [] [("topP", .null)]
    (by decide) rfl "topP" (by decide) rfl

/-- **C5 (counterexample)**: the claim resolves `role` by *presence*
("its `role` if present and user otherwise"), but the source uses `||`
(truthiness).  On `{systemInstruction: {role: "", parts: [{text: "x"}]}}`
the `role` key is present with value `""`, so the claim's recipe keeps
`""` while the translated request carries `"user"`. -/
theorem claim_C5_counterexample :
    jget (jget (jget ((convertGeminiToAntigravity
        ⟨.num 10, .num 20, .num 30, .num 40, .undef⟩ (.str "rid") (.str "m")
        (.obj [("systemInstruction", .obj [("role", .str ""),
          ("parts", .arr [.obj [("text", .str "x")]])])])
        (.obj [])).getD .null) "request") "systemInstruction") "role"
      = .str "user"
    ∧ jget (systemInstructionClaimSpec
        ⟨.num 10, .num 20, .num 30, .num 40, .undef⟩
        (.obj [("role", .str ""), ("parts", .arr [.obj [("text", .str "x")]])]))
        "role" = .str ""
    ∧ JVal.str "user" ≠ JVal.str "" :=
  ⟨rfl, rfl, by
    intro h
    injection h with h'
    exact absurd h' (by decide)⟩

/-- **C5 (amended)**: the `systemInstruction` placed in the translated
request's `request.systemInstruction` follows the three-branch resolution
with truthiness (not presence) deciding each fallback: (a) a truthy
supplied `systemInstruction` keeps its truthy `role` (else `"user"`) and
its truthy `parts` (else a single part with the configured default text,
empty string if unset); (b) otherwise a truthy configured default text
becomes `{role: "user", parts: [{text: <configured>}]}`; (c) otherwise the
result is exactly `{role: "user", parts: [{text: ""}]}`
(`systemInstructionAmendedSpec`). -/
theorem claim_C5_systemInstruction (cfg : Config) (reqId model : JVal)
    (grl tokl : List (String × JVal))
    (hgc : isNull (undefDefault (getKey grl "generationConfig") (.obj []))
      = false) :
    jget (jget ((convertGeminiToAntigravity cfg reqId model
        (.obj grl) (.obj tokl)).getD .null) "request") "systemInstruction"
      = systemInstructionAmendedSpec cfg (getKey grl "systemInstruction") := by
  rw [convert_request_eq cfg reqId model grl tokl hgc]
  simp only [jget]
  rw [getKey_spreadInto_not_mem _ _ _ (rest_keys_ne grl _ (by decide))]
  rw [show getKey
      [("contents", undefDefault (getKey grl "contents") (.arr [])),
       ("systemInstruction",
         finalSystemInstruction cfg (getKey grl "systemInstruction")),
       ("generationConfig", mergedGenerationConfig cfg
         (undefDefault (getKey grl "generationConfig") (.obj []))),
       ("sessionId", getKey tokl "sessionId")] "systemInstruction"
      = finalSystemInstruction cfg (getKey grl "systemInstruction") from rfl]
  exact finalSystemInstruction_eq_amendedSpec cfg _

/-- Witness for C5 on a concrete request supplying `parts` but no `role`
and with no configured default text. -/
theorem claim_C5_witness :
    jget (jget ((convertGeminiToAntigravity
        ⟨.num 10, .num 20, .num 30, .num 40, .undef⟩ (.str "rid") (.str "m")
        (.obj [("systemInstruction", .obj [("parts",
          .arr [.obj [("text", .str "hi")]])])])
        (.obj [])).getD .null) "request") "systemInstruction"
      = .obj [("role", .str "user"),
              ("parts", .arr [.obj [("text", .str "hi")]])] :=
  (claim_C5_systemInstruction ⟨.num 10, .num 20, .num 30, .num 40, .undef⟩
    (.str "rid") (.str "m")
    [("systemInstruction", .obj [("parts", .arr [.obj [("text", .str "hi")]])])]
    [] (by rfl)).trans rfl

/-- **C6**: the converted request contains no `safetySettings` field —
neither at the top level nor among the `request.*` keys — even when the
incoming request supplies one, and every other top-level field of the
incoming request besides `contents`, `generationConfig`,
`systemInstruction` and `safetySettings` appears verbatim under
`request.*`.  (Incoming requests are JSON objects, so their keys are
duplicate-free; a `null`-valued `generationConfig` would throw, see C9.) -/
theorem claim_C6_safetySettings_discarded (cfg : Config) (reqId model : JVal)
    (grl tokl : List (String × JVal))
    (hnd : (grl.map Prod.fst).Nodup)
    (hgc : isNull (undefDefault (getKey grl "generationConfig") (.obj []))
      = false) :
    hasOwnKey ((convertGeminiToAntigravity cfg reqId model
        (.obj grl) (.obj tokl)).getD .null) "safetySettings" = false
    ∧ hasOwnKey (jget ((convertGeminiToAntigravity cfg reqId model
        (.obj grl) (.obj tokl)).getD .null) "request") "safetySettings" = false
    ∧ ∀ p ∈ grl, p.1 ∉ destructuredKeys →
        jget (jget ((convertGeminiToAntigravity cfg reqId model
          (.obj grl) (.obj tokl)).getD .null) "request") p.1 = p.2 := by
  refine ⟨?_, ?_, ?_⟩
  · rw [convert_obj_eq cfg reqId model grl tokl hgc]
    rfl
  · rw [convert_request_eq cfg reqId model grl tokl hgc]
    show (spreadInto _ _).any (fun p => p.1 = "safetySettings") = false
    rw [any_key_spreadInto]
    have hrest : (grl.filter (fun p => p.1 ∉ destructuredKeys)).any
        (fun p => p.1 = "safetySettings") = false := by
      rw [List.any_eq_false]
      intro p hp
      have hmem := (List.mem_filter.mp hp).2
      simp only [decide_eq_true_eq] at hmem ⊢
      intro e
      rw [e] at hmem
      exact hmem (by decide)
    rw [hrest]
    rfl
  · intro p hp hkeys
    rw [convert_request_eq cfg reqId model grl tokl hgc]
    simp only [jget]
    have hmemf : p ∈ grl.filter (fun q => q.1 ∉ destructuredKeys) :=
      List.mem_filter.mpr ⟨hp, by simpa using hkeys⟩
    have hndf : ((grl.filter (fun q => q.1 ∉ destructuredKeys)).map
        Prod.fst).Nodup :=
      hnd.sublist (List.Sublist.map Prod.fst (List.filter_sublist grl))
    rw [getKey_spreadInto _ _ _ hndf, lookup_eq_some_of_mem hndf hmemf]

/-- Witness for C6: a request carrying both a `safetySettings` field and an
unrelated extra field `foo`; `safetySettings` is gone from the output and
`foo` survives verbatim. -/
theorem claim_C6_witness :
    hasOwnKey ((convertGeminiToAntigravity
        ⟨.num 10, .num 20, .num 30, .num 40, .undef⟩ (.str "rid") (.str "m")
        (.obj [("foo", .num 5), ("safetySettings", .arr [])])
        (.obj [])).getD .null) "safetySettings" = false
    ∧ jget (jget ((convertGeminiToAntigravity
        ⟨.num 10, .num 20, .num 30, .num 40, .undef⟩ (.str "rid") (.str "m")
        (.obj [("foo", .num 5), ("safetySettings", .arr [])])
        (.obj [])).getD .null) "request") "foo" = .num 5 :=
  ⟨(claim_C6_safetySettings_discarded
      ⟨.num 10, .num 20, .num 30, .num 40, .undef⟩ (.str "rid") (.str "m")
      [("foo", .num 5), ("safetySettings", .arr [])] []
      (by decide) (by rfl)).1,
   (claim_C6_safetySettings_discarded
      ⟨.num 10, .num 20, .num 30, .num 40, .undef⟩ (.str "rid") (.str "m")
      [("foo", .num 5), ("safetySettings", .arr [])] []
      (by decide) (by rfl)).2.2 ("foo", .num 5)
      (List.mem_cons_self _ _) (by decide)⟩

/-- **C9 (counterexample)**: the claim says the converter never throws for
any input, but on the structurally plausible request
`{generationConfig: null}` the source dereferences
`generationConfig.topP` on `null` (the destructuring default `{}` applies
only to `undefined`) and raises a `TypeError`, modelled by `none`. -/
theorem claim_C9_counterexample :
    convertGeminiToAntigravity ⟨.num 10, .num 20, .num 30, .num 40, .undef⟩
      (.str "rid") (.str "m") (.obj [("generationConfig", .null)]) (.obj [])
      = none := rfl

/-- **C9 (amended)**: `convertGeminiToAntigravity` completes exactly when
the request and token are non-nullish and the request's
`generationConfig` field is not `null`; whenever it completes it returns
the well-formed five-field internal request shape, degrading to defaults
on all other missing input. -/
theorem claim_C9_totality (cfg : Config) (reqId model gr tok : JVal) :
    (convertGeminiToAntigravity cfg reqId model gr tok).isSome
      = (!nullish gr && !nullish tok
          && !isNull (jget gr "generationConfig"))
    ∧ (match convertGeminiToAntigravity cfg reqId model gr tok with
       | some out => topKeys out
           = ["project", "requestId", "request", "model", "userAgent"]
       | none => True) :=
  ⟨convert_isSome_iff cfg reqId model gr tok,
   convert_shape cfg reqId model gr tok⟩

/-- **C7**: `sanitizeCandidate` is idempotent — for every candidate value
`c` and integer `i`, applying it to its own output (at the same positional
index) is structurally a no-op: the second pass finds `index` already
defined and no `thoughtSignature` fields left to strip. -/
theorem claim_C7_sanitizeCandidate_idempotent (c : JVal) (i : Int) :
    sanitizeCandidate (sanitizeCandidate c i) i = sanitizeCandidate c i :=
  sanitizeCandidate_idem c i

/-- **C8**, counterexample: `transformStreamLine` is not idempotent — on a
double-enveloped data line the first pass unwraps only one `response`
envelope, so the second pass unwraps the next one and changes the line
again. -/
theorem claim_C8_counterexample :
    transformStreamLine (transformStreamLine
        "data: \x7b\"response\":\x7b\"response\":1\x7d\x7d")
      ≠ transformStreamLine
        "data: \x7b\"response\":\x7b\"response\":1\x7d\x7d" := by
  intro h
  rw [show transformStreamLine
      "data: \x7b\"response\":\x7b\"response\":1\x7d\x7d"
    = "data: \x7b\"response\":1\x7d" from rfl] at h
  rw [show transformStreamLine "data: \x7b\"response\":1\x7d"
    = "data: 1" from rfl] at h
  exact absurd h (by decide)

/-- **C8**, amended: `transformStreamLine` is idempotent on every line whose
payload does not call for a second envelope unwrap — non-`data: ` lines,
unparsable payloads, and any parsed payload whose transform carries no
truthy `response` field; a double-enveloped data line is the exception the
counterexample exhibits. -/
theorem claim_C8_idempotent (line : String)
    (h : ∀ v, jsonParse (dropData line) = some v →
      truthy (jget (transformPayload v) "response") = false) :
    transformStreamLine (transformStreamLine line)
      = transformStreamLine line := by
  by_cases hs : startsWithData line = true
  · cases hp : jsonParse (dropData line) with
    | none =>
        have h1 : transformStreamLine line = line := by
          simp [transformStreamLine, hs, hp]
        rw [h1]
        exact h1
    | some v =>
        by_cases hn : nullish v = true
        · have h1 : transformStreamLine line = line := by
            simp [transformStreamLine, hs, hp, hn]
          rw [h1]
          exact h1
        · have hnf : nullish v = false := by
            revert hn
            cases nullish v <;> simp
          have h1 : transformStreamLine line
              = "data: " ++ jsonStringify (transformPayload v) := by
            simp [transformStreamLine, hs, hp, hnf]
          have hg : goodJ v = true := jsonParse_good _ _ hp
          have hparse : jsonParse (jsonStringify (transformPayload v))
              = some (transformPayload v) :=
            jsonParse_stringify _ (goodJ_transformPayload v hg)
          have hnp : nullish (transformPayload v) = false :=
            nullish_transformPayload v hnf
          have hfix := transformPayload_fixpoint v (h v hp)
          rw [h1]
          have h2 : transformStreamLine
              ("data: " ++ jsonStringify (transformPayload v))
              = "data: " ++ jsonStringify
                  (transformPayload (transformPayload v)) := by
            simp [transformStreamLine, startsWithData_data, dropData_data,
              hparse, hnp]
          rw [h2, hfix]
  · have h1 : transformStreamLine line = line := by
      simp [transformStreamLine, hs]
    rw [h1]
    exact h1

/-- **C8** witness: a concrete already-flat data line on which the amended
idempotence theorem applies. -/
theorem claim_C8_witness :
    transformStreamLine (transformStreamLine "data: \x7b\"foo\":1\x7d")
      = transformStreamLine "data: \x7b\"foo\":1\x7d" :=
  claim_C8_idempotent "data: \x7b\"foo\":1\x7d" (by
    intro v hv
    rw [show jsonParse (dropData "data: \x7b\"foo\":1\x7d")
      = some (JVal.obj [("foo", JVal.num 1)]) from rfl] at hv
    injection hv with hv
    rw [← hv]
    rfl)

end Antigravity
